import Mathlib

/-!
# MAC address mapper of the ONVIF camera driver

A shallow embedding of `internal/driver/macmapper.go` together with the pieces
of the Go standard library it calls (`strings.TrimSpace`, `strings.ToLower`,
`strings.ReplaceAll`, `strings.Contains`, `strings.Split`, `net.ParseMAC`,
`net.HardwareAddr.String`).

Conventions of the embedding:

* a Go `string` holding UTF-8 text is the list of its code points
  (`GoString`); where the Go code indexes or measures a string by bytes
  (`net.ParseMAC`) the model first takes the UTF-8 bytes of the text;
* a Go `byte` is a natural number below 256, and `byte(n)` is `n % 256`;
* a pair `(value, error)` returned by a Go function is an `Except`;
* a runtime panic (a slice expression out of range) is `none`;
* a Go map is an association list with distinct keys.  The order of the list
  stands for the order in which a `range` loop visits the entries; Go leaves
  that order unspecified, so statements quantify over every list;
* the reader/writer lock is not modelled: every operation is taken as one
  atomic step on the mapper state;
* a call of the logging client appends one entry to a list of log entries
  returned next to the result.
-/

namespace Driver

/-! ## Strings -/

/-- A Go string holding UTF-8 text, as the list of its code points. -/
abbrev GoString := List Char

/-- UTF-8 encoding of one code point, as a list of bytes. -/
def utf8Encode (c : Char) : List Nat :=
  let n := c.toNat
  if n < 0x80 then [n]
  else if n < 0x800 then [0xC0 + n / 0x40, 0x80 + n % 0x40]
  else if n < 0x10000 then [0xE0 + n / 0x1000, 0x80 + n / 0x40 % 0x40, 0x80 + n % 0x40]
  else [0xF0 + n / 0x40000, 0x80 + n / 0x1000 % 0x40, 0x80 + n / 0x40 % 0x40, 0x80 + n % 0x40]

/-- The bytes of a Go string: what `len(s)` counts and `s[i]` reads. -/
def bytes (s : GoString) : List Nat :=
  s.flatMap utf8Encode

/-- Go `unicode.IsSpace`: the Latin-1 switch, then the `White_Space` range
table for the code points above Latin-1. -/
def IsSpace (r : Char) : Bool :=
  let n := r.toNat
  if n ≤ 0xFF then
    n == 0x09 || n == 0x0A || n == 0x0B || n == 0x0C || n == 0x0D || n == 0x20
      || n == 0x85 || n == 0xA0
  else
    n == 0x1680 || (0x2000 ≤ n && n ≤ 0x200A) || n == 0x2028 || n == 0x2029
      || n == 0x202F || n == 0x205F || n == 0x3000

/-- Go `strings.TrimSpace`: the string without its leading and trailing white
space, as defined by `unicode.IsSpace`. -/
def TrimSpace (s : GoString) : GoString :=
  ((s.dropWhile IsSpace).reverse.dropWhile IsSpace).reverse

/-- Go `unicode.ToLower` on one code point.  The ASCII range is the code of the
standard library (`'A'..'Z'` move by `'a' - 'A'`); above ASCII the standard
library consults its Unicode case tables, which are taken as the parameter
`caseTable`. -/
def unicodeToLower (caseTable : Char → Char) (r : Char) : Char :=
  if r.toNat ≤ 0x7F then
    if 0x41 ≤ r.toNat ∧ r.toNat ≤ 0x5A then Char.ofNat (r.toNat + (0x61 - 0x41)) else r
  else caseTable r

/-- Go `strings.ToLower`: every code point mapped by `unicode.ToLower`. -/
def ToLower (caseTable : Char → Char) (s : GoString) : GoString :=
  s.map (unicodeToLower caseTable)

/-- Go `strings.ReplaceAll(s, old, new)` for a one-byte `old`: every occurrence
of the character `old` is replaced by `new`. -/
def ReplaceAll (s : GoString) (old : Char) (new : GoString) : GoString :=
  s.flatMap (fun c => if c = old then new else [c])

/-- Go `strings.Contains(s, substr)`: `substr` occurs in `s` at some offset. -/
def Contains : GoString → GoString → Bool
  | [], substr => substr.isEmpty
  | c :: s, substr => substr.isPrefixOf (c :: s) || Contains s substr

/-- Go `strings.Split(s, sep)` for a one-byte `sep`: the pieces of `s` between
the occurrences of `sep`; there is always at least one piece. -/
def Split : GoString → Char → List GoString
  | [], _ => [[]]
  | c :: s, sep =>
    if c = sep then [] :: Split s sep
    else
      match Split s sep with
      | [] => [[c]]
      | piece :: pieces => (c :: piece) :: pieces

/-! ## `net.ParseMAC` and `net.HardwareAddr.String` -/

/-- Go `net.AddrError`. -/
structure AddrError where
  Err : GoString
  Addr : GoString
  deriving DecidableEq, Repr

/-- Go `(*net.AddrError).Error`. -/
def AddrError.Error (e : AddrError) : GoString :=
  if e.Addr ≠ [] then "address ".toList ++ e.Addr ++ ": ".toList ++ e.Err else e.Err

/-- Go `net.HardwareAddr`: a slice of bytes. -/
abbrev HardwareAddr := List Nat

/-- The constant `big` of package `net`. -/
def big : Nat := 0xFFFFFF

/-- The loop of Go `net.xtoi` over the bytes still to read, with the number `n`
read so far and the index `i`; the result is `(number, characters consumed,
success)`. -/
def xtoiLoop : List Nat → Nat → Nat → Nat × Nat × Bool
  | [], n, i => if i = 0 then (0, i, false) else (n, i, true)
  | c :: rest, n, i =>
    if 0x30 ≤ c ∧ c ≤ 0x39 then
      let n := n * 16 + (c - 0x30)
      if n ≥ big then (0, i, false) else xtoiLoop rest n (i + 1)
    else if 0x61 ≤ c ∧ c ≤ 0x66 then
      let n := n * 16 + (c - 0x61) + 10
      if n ≥ big then (0, i, false) else xtoiLoop rest n (i + 1)
    else if 0x41 ≤ c ∧ c ≤ 0x46 then
      let n := n * 16 + (c - 0x41) + 10
      if n ≥ big then (0, i, false) else xtoiLoop rest n (i + 1)
    else if i = 0 then (0, i, false) else (n, i, true)

/-- Go `net.xtoi`: hexadecimal to integer. -/
def xtoi (s : List Nat) : Nat × Nat × Bool :=
  xtoiLoop s 0 0

/-- Go `net.xtoi2`: the next two hex digits of `s` as a byte; when `s` is
longer than two bytes the third byte must be `e`. -/
def xtoi2 (s : List Nat) (e : Nat) : Nat × Bool :=
  if s.length > 2 ∧ s.getD 2 0 ≠ e then (0, false)
  else
    match xtoi (s.take 2) with
    | (n, ei, ok) => (n % 256, ok && ei == 2)

/-- The loop of `net.ParseMAC` for the forms `xx:xx:...` and `xx-xx-...`:
`k` iterations are left and `x` is the offset of the next octet. -/
def parseSepLoop (s : List Nat) : Nat → Nat → Option HardwareAddr
  | 0, _ => some []
  | k + 1, x =>
    match xtoi2 (s.drop x) (s.getD 2 0) with
    | (v, true) => (parseSepLoop s k (x + 3)).map (fun hw => v :: hw)
    | (_, false) => none

/-- The loop of `net.ParseMAC` for the form `xxxx.xxxx. ...`: `k` iterations
(two octets each) are left and `x` is the offset of the next group. -/
def parseDotLoop (s : List Nat) : Nat → Nat → Option HardwareAddr
  | 0, _ => some []
  | k + 1, x =>
    match xtoi2 ((s.drop x).take 2) 0 with
    | (v, true) =>
      match xtoi2 (s.drop (x + 2)) (s.getD 4 0) with
      | (w, true) => (parseDotLoop s k (x + 5)).map (fun hw => v :: w :: hw)
      | (_, false) => none
    | (_, false) => none

/-- Go `net.ParseMAC`. -/
def ParseMAC (str : GoString) : Except AddrError HardwareAddr :=
  let s := bytes str
  let error : Except AddrError HardwareAddr :=
    .error { Err := "invalid MAC address".toList, Addr := str }
  if s.length < 14 then error
  else if s.getD 2 0 = 0x3A ∨ s.getD 2 0 = 0x2D then
    if (s.length + 1) % 3 ≠ 0 then error
    else
      let n := (s.length + 1) / 3
      if n ≠ 6 ∧ n ≠ 8 ∧ n ≠ 20 then error
      else
        match parseSepLoop s n 0 with
        | some hw => .ok hw
        | none => error
  else if s.getD 4 0 = 0x2E then
    if (s.length + 1) % 5 ≠ 0 then error
    else
      let n := 2 * (s.length + 1) / 5
      if n ≠ 6 ∧ n ≠ 8 ∧ n ≠ 20 then error
      else
        match parseDotLoop s (n / 2) 0 with
        | some hw => .ok hw
        | none => error
  else error

/-- The constant `hexDigit` of package `net`. -/
def hexDigit : GoString := "0123456789abcdef".toList

/-- The loop of `net.HardwareAddr.String`: the bytes still to write, the index
`i` of the next one and the buffer written so far. -/
def hwStringLoop : List Nat → Nat → GoString → GoString
  | [], _, buf => buf
  | b :: rest, i, buf =>
    let buf := if i > 0 then buf ++ [':'] else buf
    let buf := buf ++ [hexDigit.getD (b / 16) '0']
    let buf := buf ++ [hexDigit.getD (b % 16) '0']
    hwStringLoop rest (i + 1) buf

/-- Go `net.HardwareAddr.String`. -/
def HardwareAddr.String (a : HardwareAddr) : GoString :=
  if a.length = 0 then [] else hwStringLoop a 0 []

/-! ## The canonicalizer -/

/-- The function `SanitizeMACAddress`: parse the trimmed input and print the
address in the standard Go form. -/
def SanitizeMACAddress (mac : GoString) : Except AddrError GoString :=
  match ParseMAC (TrimSpace mac) with
  | .error err => .error err
  | .ok hwAddr => .ok (HardwareAddr.String hwAddr)

/-- Go slice expression `s[lo:hi]` on a string of one-byte characters; `none`
is the runtime panic of an index out of range. -/
def slice (s : GoString) (lo hi : Int) : Option GoString :=
  if 0 ≤ lo ∧ lo ≤ hi ∧ hi ≤ (s.length : Int) then
    some ((s.drop lo.toNat).take (hi - lo).toNat)
  else none

/-- The loop of `macAddressBytewiseReverse`, `for i := len(mac); i > 0; i -= 2`,
by the value of `i`: at `0` the loop ends, at `1` the slice `mac[-1:1]` panics,
otherwise `mac[i-2:i]` is written, then the delimiter when `i > 2`. -/
def reverseLoop (mac : GoString) : Nat → GoString → Option GoString
  | 0, buf => some buf
  | 1, _ => slice mac ((1 : Int) - 2) 1
  | i + 2, buf =>
    match slice mac (((i + 2 : Nat) : Int) - 2) ((i + 2 : Nat) : Int) with
    | none => none
    | some octet =>
      let buf := buf ++ octet
      let buf := if i + 2 > 2 then buf ++ [':'] else buf
      reverseLoop mac i buf

/-- The function `macAddressBytewiseReverse`; `none` is a runtime panic. -/
def macAddressBytewiseReverse (mac : GoString) : Option (Except AddrError GoString) :=
  match SanitizeMACAddress mac with
  | .error err => some (.error err)
  | .ok mac =>
    let mac := ReplaceAll mac ':' []
    (reverseLoop mac mac.length []).map Except.ok

/-! ## The mapper -/

/-- The levels of the logging client used by the mapper. -/
inductive LogLevel where
  | warn
  | debug
  deriving DecidableEq, Repr

/-- One call of the logging client: the level and the formatted message. -/
structure LogEntry where
  level : LogLevel
  msg : GoString
  deriving DecidableEq, Repr

/-- What the mapper uses of `interfaces.DeviceServiceSDK`: whether
`SecretProvider().GetSecret(secretName, UsernameKey, PasswordKey, AuthModeKey)`
returns an error for a secret name. -/
structure DeviceServiceSDK where
  getSecretFails : GoString → Bool

/-- What the two source files take from elsewhere: the Unicode case tables of
the Go standard library above ASCII, and the package constant
`noAuthSecretName`, declared in a file of the package that is not part of the
sources at hand. -/
structure Context where
  caseTable : Char → Char
  noAuthSecretName : GoString

/-- The struct `MACAddressMapper` (without its lock). -/
structure MACAddressMapper where
  credsMap : List (GoString × GoString)
  sdkService : DeviceServiceSDK

/-- The function `NewMACAddressMapper`. -/
def NewMACAddressMapper (sdkService : DeviceServiceSDK) : MACAddressMapper :=
  { credsMap := [], sdkService := sdkService }

/-- Go map read `v, found := m[k]`. -/
def mapGet (m : List (GoString × GoString)) (k : GoString) : Option GoString :=
  m.lookup k

/-- Go map write `m[k] = v`: the value of an existing key is replaced, a new
key is added. -/
def mapSet (m : List (GoString × GoString)) (k v : GoString) : List (GoString × GoString) :=
  match m.lookup k with
  | some _ => m.map (fun p => if p.1 = k then (k, v) else p)
  | none => m ++ [(k, v)]

/-- The body of the inner loop of `UpdateMappings`, for one token `mac` of the
list of `secretName`. -/
def updateToken (secretName : GoString)
    (acc : List (GoString × GoString) × List LogEntry) (mac : GoString) :
    List (GoString × GoString) × List LogEntry :=
  match SanitizeMACAddress mac with
  | .error err =>
    (acc.1, acc.2 ++ [⟨.warn, "Skipping invalid mac address ".toList ++ mac ++ ": ".toList
      ++ err.Error⟩])
  | .ok sanitized =>
    match mapGet acc.1 sanitized with
    | some existing =>
      (acc.1, acc.2 ++ [⟨.warn, "Unable to set credential group to ".toList ++ secretName
        ++ ". MAC address '".toList ++ mac ++ "' already belongs to credential group ".toList
        ++ existing ++ ".".toList⟩])
    | none => (mapSet acc.1 sanitized secretName, acc.2)

/-- The body of the outer loop of `UpdateMappings`, for one entry of `raw`. -/
def updateGroup (ctx : Context) (sdkService : DeviceServiceSDK)
    (acc : List (GoString × GoString) × List LogEntry) (entry : GoString × GoString) :
    List (GoString × GoString) × List LogEntry :=
  let secretName := entry.1
  let macs := entry.2
  let logs :=
    if ToLower ctx.caseTable secretName ≠ ctx.noAuthSecretName then
      if sdkService.getSecretFails secretName then
        acc.2 ++ [⟨.warn, "One or more MAC address mappings exist for the secret name '".toList
          ++ secretName ++ "' which does not exist in the Secret Store!".toList⟩]
      else acc.2
    else acc.2
  (Split macs ',').foldl (updateToken secretName) (acc.1, logs)

/-- The method `UpdateMappings`; `raw` lists the entries of the Go map in the
order the `range` loop visits them.  The result is the mapper after the call
and the log entries written. -/
def UpdateMappings (ctx : Context) (m : MACAddressMapper) (raw : List (GoString × GoString)) :
    MACAddressMapper × List LogEntry :=
  let built := raw.foldl (updateGroup ctx m.sdkService) ([], [])
  ({ m with credsMap := built.1 }, built.2)

/-- The method `TryGetSecretNameForMACAddress`: the secret name returned and
the log entries written. -/
def TryGetSecretNameForMACAddress (ctx : Context) (m : MACAddressMapper)
    (mac defaultSecretName : GoString) : GoString × List LogEntry :=
  match SanitizeMACAddress mac with
  | .error err =>
    (ctx.noAuthSecretName, [⟨.warn, "Unable to sanitize mac address: ".toList ++ err.Error
      ++ ". Using no authentication.".toList⟩])
  | .ok sanitized =>
    match mapGet m.credsMap sanitized with
    | none =>
      (defaultSecretName, [⟨.debug, "No credential mapping exists for mac address '".toList
        ++ mac ++ "', will use default secret name.".toList⟩])
    | some secretName => (secretName, [])

/-- The loop of `MatchEndpointRefAddressToMAC` over the entries of the map
still to visit; `endpointRef` is the normalized text.  `none` is a runtime
panic. -/
def matchLoop (endpointRef : GoString) :
    List (GoString × GoString) → List LogEntry → Option (GoString × List LogEntry)
  | [], logs => some ([], logs)
  | (mac, _) :: rest, logs =>
    if Contains endpointRef (ReplaceAll mac ':' []) then some (mac, logs)
    else
      match macAddressBytewiseReverse mac with
      | none => none
      | some (.error err) =>
        matchLoop endpointRef rest (logs ++ [⟨.warn,
          "issue computing byte-wise reverse of MAC address ".toList ++ mac ++ ": ".toList
            ++ err.Error⟩])
      | some (.ok reversedMAC) =>
        if Contains endpointRef reversedMAC then some (mac, logs)
        else matchLoop endpointRef rest logs

/-- The method `MatchEndpointRefAddressToMAC`: the MAC address returned (the
empty string when none is found) and the log entries written; `none` is a
runtime panic. -/
def MatchEndpointRefAddressToMAC (ctx : Context) (m : MACAddressMapper)
    (endpointRef : GoString) : Option (GoString × List LogEntry) :=
  let endpointRef := ToLower ctx.caseTable (ReplaceAll endpointRef '-' [])
  matchLoop endpointRef m.credsMap []

/-! ## Renderings of a hardware address

The textual forms of a list of octets that the statements below speak about:
the canonical form (lower-case hex octets joined by colons) and the variants
with another separator, grouping or letter case. -/

/-- The pieces `ts` joined by the separator `sep`. -/
def joinSep {α : Type} (sep : α) : List (List α) → List α
  | [] => []
  | [t] => t
  | t :: t' :: ts => t ++ sep :: joinSep sep (t' :: ts)

/-- The upper-case hex digits. -/
def upperHexDigit : GoString := "0123456789ABCDEF".toList

/-- The hex digit of value `d`, in upper case when `upper` is set. -/
def hexChar (upper : Bool) (d : Nat) : Char :=
  if upper then upperHexDigit.getD d '0' else hexDigit.getD d '0'

/-- The character code of `hexChar upper d`. -/
def hexCode (upper : Bool) (d : Nat) : Nat :=
  if d < 10 then 0x30 + d else if upper then 0x41 + (d - 10) else 0x61 + (d - 10)

/-- The two hex digits of the octet `b`; `u` gives the letter case of the high
and of the low digit. -/
def octetText (u : Bool × Bool) (b : Nat) : GoString :=
  [hexChar u.1 (b / 16), hexChar u.2 (b % 16)]

/-- The canonical form of a hardware address: its octets as lower-case
two-digit hex, joined by colons. -/
def canonicalMAC (hw : List Nat) : GoString :=
  joinSep ':' (hw.map (octetText (false, false)))

/-- The octets `hw` as two-digit hex in the letter cases `us`, joined by the
separator `sep` (`aa:bb:cc:dd:ee:ff`, `AA-BB-CC-DD-EE-FF`). -/
def sepRendering (sep : Char) (us : List (Bool × Bool)) (hw : List Nat) : GoString :=
  joinSep sep (List.zipWith octetText us hw)

/-- Consecutive pieces concatenated two by two. -/
def pairUp : List GoString → List GoString
  | t :: t' :: ts => (t ++ t') :: pairUp ts
  | _ => []

/-- The octets `hw` in the letter cases `us`, in groups of two octets joined
by dots (`aabb.ccdd.eeff`). -/
def dotRendering (us : List (Bool × Bool)) (hw : List Nat) : GoString :=
  joinSep '.' (pairUp (List.zipWith octetText us hw))

/-- The octets `hw` in the letter cases `us` with no separator at all
(`aabbccddeeff`). -/
def bareRendering (us : List (Bool × Bool)) (hw : List Nat) : GoString :=
  (List.zipWith octetText us hw).flatten

/-! ## Sequences of updates -/

/-- The mapper made by `NewMACAddressMapper` after the calls
`UpdateMappings(raw)` for the raw mappings `raws`, in this order. -/
def applyUpdates (ctx : Context) (sdkService : DeviceServiceSDK)
    (raws : List (List (GoString × GoString))) : MACAddressMapper :=
  raws.foldl (fun m raw => (UpdateMappings ctx m raw).1) (NewMACAddressMapper sdkService)

/-! ## The credential resolver

The file `credentials.go` of the package is not among the sources; only its
test is.  What the statements need of it is written down from the
specification. -/

/-- Modelled from the spec: the enumeration of auth modes, declared in the
missing `credentials.go` ("`AuthMode` is one of a fixed enumeration {None,
Digest, UsernameToken, Both}"). -/
inductive AuthMode where
  | AuthModeNone
  | AuthModeDigest
  | AuthModeUsernameToken
  | AuthModeBoth
  deriving DecidableEq, Repr

/-- The four auth-mode tokens of the ONVIF client library (`onvif.DigestAuth`,
`onvif.UsernameTokenAuth`, `onvif.Both`, `onvif.NoAuth`): constants of another
module, taken as parameters. -/
structure OnvifTokens where
  DigestAuth : GoString
  UsernameTokenAuth : GoString
  Both : GoString
  NoAuth : GoString

/-- Modelled from the spec: the struct `Credentials` of the missing
`credentials.go` ("`{AuthMode, Username, Password}`"). -/
structure Credentials where
  AuthMode : AuthMode
  Username : GoString
  Password : GoString
  deriving DecidableEq, Repr

/-- Modelled from the spec: the function `IsAuthModeValid` of the missing
`credentials.go`: the string is one of "the four recognized protocol auth-mode
tokens". -/
def IsAuthModeValid (tok : OnvifTokens) (mode : GoString) : Bool :=
  mode == tok.DigestAuth || mode == tok.UsernameTokenAuth || mode == tok.Both
    || mode == tok.NoAuth

/-- Modelled from the spec: `ResolveAuthMode` of the missing `credentials.go`
("maps the four recognized protocol auth-mode tokens to the enumeration.  Any
unrecognized token maps to `UsernameToken`"). -/
def ResolveAuthMode (tok : OnvifTokens) (raw : GoString) : AuthMode :=
  if raw = tok.DigestAuth then .AuthModeDigest
  else if raw = tok.UsernameTokenAuth then .AuthModeUsernameToken
  else if raw = tok.Both then .AuthModeBoth
  else if raw = tok.NoAuth then .AuthModeNone
  else .AuthModeUsernameToken

/-- The three named fields of a secret (username, password, mode). -/
structure SecretData where
  username : GoString
  password : GoString
  mode : GoString

/-- The secret store accessor `GetSecret(groupName, fieldNames...)`: the fields
of the group, or the cause of the failure. -/
abbrev SecretProvider := GoString → Except GoString SecretData

/-- Modelled from the spec: the error kinds of the credential resolver, declared
outside the sources ("`SecretStoreError` (wraps an underlying secret-store
failure)", "`MissingMACAddress`"). -/
inductive CredentialsError where
  | SecretStoreError (cause : GoString)
  | MissingMACAddress
  deriving DecidableEq, Repr

/-- Modelled from the spec: the method `tryGetCredentials` of the missing
`credentials.go` ("if `group` case-insensitively equals the reserved no auth
name, returns `{AuthMode: None}` immediately without consulting the secret
store.  Otherwise calls the secret store accessor for three named fields; on
accessor failure, fails with `SecretStoreError` wrapping the cause.  On success,
builds `Credentials{Username, Password, AuthMode: ResolveAuthMode(mode)}`").
The result comes with the list of the secret names asked of the secret store. -/
def tryGetCredentials (ctx : Context) (tok : OnvifTokens) (store : SecretProvider)
    (secretName : GoString) : Except CredentialsError Credentials × List GoString :=
  if ToLower ctx.caseTable secretName = ToLower ctx.caseTable ctx.noAuthSecretName then
    (.ok { AuthMode := .AuthModeNone, Username := [], Password := [] }, [])
  else
    match store secretName with
    | .error cause => (.error (.SecretStoreError cause), [secretName])
    | .ok data =>
      (.ok { AuthMode := ResolveAuthMode tok data.mode, Username := data.username,
             Password := data.password }, [secretName])

/-- Modelled from the spec: a device of the device registry, read-only here: "a
set of named protocol-property bags". -/
structure Device where
  Protocols : List (GoString × List (GoString × GoString))

/-- The keys under which a device holds its MAC address (the constants
`OnvifProtocol` and `MACAddress`, declared outside the sources) and the
configured option `DefaultSecretName`. -/
structure DriverConfig where
  OnvifProtocol : GoString
  MACAddress : GoString
  DefaultSecretName : GoString

/-- Modelled from the spec: the MAC-address field of the protocol properties of
a device, `none` when the protocol or the field is absent. -/
def deviceMACAddress (cfg : DriverConfig) (device : Device) : Option GoString :=
  match device.Protocols.lookup cfg.OnvifProtocol with
  | none => none
  | some properties => properties.lookup cfg.MACAddress

/-- Modelled from the spec: the method `tryGetCredentialsForDevice` of the
missing `credentials.go` ("reads the MAC-address field from the device's
protocol properties; fails with `MissingMACAddress` if absent or empty.  Calls
`ResolveGroupForMAC` with the configured default group, then delegates to
`ResolveCredentialsForGroup`").  The result comes with the list of the secret
names asked of the secret store. -/
def tryGetCredentialsForDevice (ctx : Context) (tok : OnvifTokens) (store : SecretProvider)
    (cfg : DriverConfig) (mapper : MACAddressMapper) (device : Device) :
    Except CredentialsError Credentials × List GoString :=
  match deviceMACAddress cfg device with
  | none => (.error .MissingMACAddress, [])
  | some mac =>
    if mac = [] then (.error .MissingMACAddress, [])
    else
      tryGetCredentials ctx tok store
        (TryGetSecretNameForMACAddress ctx mapper mac cfg.DefaultSecretName).1

/-! ## Hex digits -/

theorem hexChar_toNat (u : Bool) (d : Nat) (hd : d < 16) :
    (hexChar u d).toNat = hexCode u d := by
  interval_cases d <;> cases u <;> rfl

theorem hexCode_lt (u : Bool) (d : Nat) (hd : d < 16) : hexCode u d < 0x80 := by
  unfold hexCode; split <;> [omega; (split <;> omega)]

theorem xtoiLoop_hexCode (u : Bool) (d : Nat) (hd : d < 16) (rest : List Nat) (n i : Nat) :
    xtoiLoop (hexCode u d :: rest) n i =
      if n * 16 + d ≥ big then (0, i, false) else xtoiLoop rest (n * 16 + d) (i + 1) := by
  unfold hexCode
  by_cases h10 : d < 10
  · have h1 : 0x30 ≤ 0x30 + d ∧ 0x30 + d ≤ 0x39 := by omega
    simp only [h10, if_true, xtoiLoop, h1, and_self, Nat.add_sub_cancel_left]
  · cases u
    · have h1 : ¬ (0x30 ≤ 0x61 + (d - 10) ∧ 0x61 + (d - 10) ≤ 0x39) := by omega
      have h2 : 0x61 ≤ 0x61 + (d - 10) ∧ 0x61 + (d - 10) ≤ 0x66 := by omega
      have h3 : n * 16 + (d - 10) + 10 = n * 16 + d := by omega
      simp only [h10, if_false, xtoiLoop, h1, h2, and_self, Nat.add_sub_cancel_left, h3,
        if_true, Bool.false_eq_true]
    · have h1 : ¬ (0x30 ≤ 0x41 + (d - 10) ∧ 0x41 + (d - 10) ≤ 0x39) := by omega
      have h2 : ¬ (0x61 ≤ 0x41 + (d - 10) ∧ 0x41 + (d - 10) ≤ 0x66) := by omega
      have h4 : 0x41 ≤ 0x41 + (d - 10) ∧ 0x41 + (d - 10) ≤ 0x46 := by omega
      have h3 : n * 16 + (d - 10) + 10 = n * 16 + d := by omega
      simp only [h10, if_false, xtoiLoop, h1, h2, h4, and_self, Nat.add_sub_cancel_left, h3,
        if_true]

theorem xtoi_two (u v : Bool) (b : Nat) (hb : b < 256) :
    xtoi [hexCode u (b / 16), hexCode v (b % 16)] = (b, 2, true) := by
  have h1 : b / 16 < 16 := by omega
  have h2 : b % 16 < 16 := by omega
  have h3 : ¬ (0 * 16 + b / 16 ≥ big) := by unfold big; omega
  have h4 : ¬ ((0 * 16 + b / 16) * 16 + b % 16 ≥ big) := by unfold big; omega
  have h5 : (0 * 16 + b / 16) * 16 + b % 16 = b := by omega
  rw [xtoi, xtoiLoop_hexCode u _ h1, if_neg h3, xtoiLoop_hexCode v _ h2, if_neg h4, h5]
  simp [xtoiLoop]

/-- The character codes of the two hex digits of an octet. -/
theorem octetText_codes (u : Bool × Bool) (b : Nat) (hb : b < 256) :
    (octetText u b).map Char.toNat = [hexCode u.1 (b / 16), hexCode u.2 (b % 16)] := by
  simp [octetText, hexChar_toNat _ _ (show b / 16 < 16 by omega),
    hexChar_toNat _ _ (show b % 16 < 16 by omega)]

/-- The function `xtoi2` reads an octet back from its two hex digits, when what
follows is nothing or the expected separator. -/
theorem xtoi2_codes (u v : Bool) (b : Nat) (hb : b < 256) (rest : List Nat) (e : Nat)
    (hrest : rest = [] ∨ rest.head? = some e) :
    xtoi2 (hexCode u (b / 16) :: hexCode v (b % 16) :: rest) e = (b, true) := by
  have hb2 : b % 256 = b := Nat.mod_eq_of_lt hb
  rcases hrest with h | h
  · subst h
    simp [xtoi2, xtoi_two u v b hb, hb2]
  · cases rest with
    | nil => simp at h
    | cons r rest =>
      simp only [List.head?_cons, Option.some.injEq] at h
      subst h
      simp [xtoi2, xtoi_two u v b hb, hb2]

/-! ## Bytes of ASCII text -/

theorem bytes_ascii (s : GoString) (h : ∀ c ∈ s, c.toNat < 0x80) :
    bytes s = s.map Char.toNat := by
  induction s with
  | nil => rfl
  | cons c s ih =>
    have hc : c.toNat < 0x80 := h c (List.mem_cons_self _ _)
    have ih2 := ih (fun d hd => h d (List.mem_cons_of_mem _ hd))
    simp only [bytes, List.flatMap_cons, List.map_cons] at ih2 ⊢
    rw [ih2]
    simp [utf8Encode, hc]


/-! ## Parsing a rendering back -/

theorem joinSep_map {α β : Type} (f : α → β) (sep : α) (ts : List (List α)) :
    (joinSep sep ts).map f = joinSep (f sep) (ts.map (List.map f)) := by
  induction ts with
  | nil => rfl
  | cons t ts ih =>
    cases ts with
    | nil => simp [joinSep]
    | cons t' ts => simp only [joinSep, List.map_append, List.map_cons, ih]

theorem drop_add_of_drop_eq {α : Type} (s pre rest : List α) (x : Nat)
    (h : s.drop x = pre ++ rest) : s.drop (x + pre.length) = rest := by
  rw [← List.drop_drop, h, List.drop_left]

theorem parseSepLoop_joinSep (s : List Nat) (sp : Nat) (hsp : s.getD 2 0 = sp) :
    ∀ (hw : List Nat) (us : List (Bool × Bool)) (x : Nat), us.length = hw.length →
      (∀ b ∈ hw, b < 256) →
      s.drop x = joinSep sp ((List.zipWith octetText us hw).map (List.map Char.toNat)) →
      parseSepLoop s hw.length x = some hw := by
  intro hw
  induction hw with
  | nil => intro us x _ _ _; rfl
  | cons b hw ih =>
    intro us x hlen hb hs
    cases us with
    | nil => simp at hlen
    | cons u us =>
      have hb0 : b < 256 := hb b (List.mem_cons_self _ _)
      have hb1 : ∀ c ∈ hw, c < 256 := fun c hc => hb c (List.mem_cons_of_mem _ hc)
      have hlen1 : us.length = hw.length := by simpa using hlen
      cases hw with
      | nil =>
        cases us with
        | cons _ _ => simp at hlen1
        | nil =>
          simp only [List.zipWith_cons_cons, List.zipWith_nil_right, List.map_cons, List.map_nil,
            joinSep, octetText_codes u b hb0] at hs
          simp only [List.length_cons, List.length_nil, parseSepLoop, hs, hsp]
          rw [xtoi2_codes u.1 u.2 b hb0 [] sp (Or.inl rfl)]
          rfl
      | cons b' hw =>
        cases us with
        | nil => simp at hlen1
        | cons u' us =>
          simp only [List.zipWith_cons_cons, List.map_cons, joinSep,
            octetText_codes u b hb0] at hs
          have hrest := drop_add_of_drop_eq s [hexCode u.1 (b / 16), hexCode u.2 (b % 16), sp] _ x
            (by simpa using hs)
          have ih1 := ih (u' :: us) (x + 3) hlen1 hb1
            (by simpa only [List.zipWith_cons_cons, List.map_cons] using hrest)
          rw [List.length_cons, parseSepLoop, hsp, hs]
          simp only [List.cons_append, List.nil_append]
          rw [xtoi2_codes u.1 u.2 b hb0 (sp :: _) sp (Or.inr rfl), ih1]
          rfl


theorem mem_zipWith_octetText (hw : List Nat) :
    ∀ (us : List (Bool × Bool)) (t : GoString), t ∈ List.zipWith octetText us hw →
      ∃ u b, b ∈ hw ∧ t = octetText u b := by
  induction hw with
  | nil => intro us t h; simp at h
  | cons b hw ih =>
    intro us t h
    cases us with
    | nil => simp at h
    | cons u us =>
      simp only [List.zipWith_cons_cons, List.mem_cons] at h
      rcases h with h | h
      · exact ⟨u, b, List.mem_cons_self _ _, h⟩
      · obtain ⟨u', b', hb', ht⟩ := ih us t h
        exact ⟨u', b', List.mem_cons_of_mem _ hb', ht⟩

theorem length_zipWith_octetText (us : List (Bool × Bool)) (hw : List Nat)
    (hlen : us.length = hw.length) : (List.zipWith octetText us hw).length = hw.length := by
  simp [hlen]

theorem mem_joinSep {α : Type} (sep : α) (ts : List (List α)) (c : α)
    (h : c ∈ joinSep sep ts) : c = sep ∨ ∃ t ∈ ts, c ∈ t := by
  induction ts with
  | nil => simp [joinSep] at h
  | cons t ts ih =>
    cases ts with
    | nil => exact Or.inr ⟨t, List.mem_cons_self _ _, by simpa [joinSep] using h⟩
    | cons t' ts =>
      simp only [joinSep, List.mem_append, List.mem_cons] at h
      rcases h with h | h | h
      · exact Or.inr ⟨t, List.mem_cons_self _ _, h⟩
      · exact Or.inl h
      · rcases ih h with h1 | ⟨t1, ht1, hc⟩
        · exact Or.inl h1
        · exact Or.inr ⟨t1, List.mem_cons_of_mem _ ht1, hc⟩

theorem length_joinSep_two {α : Type} (sep : α) (ts : List (List α))
    (h : ∀ t ∈ ts, t.length = 2) (hne : ts ≠ []) :
    (joinSep sep ts).length + 1 = 3 * ts.length := by
  induction ts with
  | nil => exact absurd rfl hne
  | cons t ts ih =>
    have ht : t.length = 2 := h t (List.mem_cons_self _ _)
    cases ts with
    | nil => simp [joinSep, ht]
    | cons t' ts =>
      have ih1 := ih (fun t1 h1 => h t1 (List.mem_cons_of_mem _ h1)) (by simp)
      simp only [joinSep, List.length_append, List.length_cons, ht] at ih1 ⊢
      omega

theorem hexChar_ascii (u : Bool) (d : Nat) (hd : d < 16) : (hexChar u d).toNat < 0x80 := by
  rw [hexChar_toNat u d hd]; exact hexCode_lt u d hd

theorem octetText_ascii (u : Bool × Bool) (b : Nat) (hb : b < 256) :
    ∀ c ∈ octetText u b, c.toNat < 0x80 := by
  intro c hc
  simp only [octetText, List.mem_cons, List.mem_singleton, List.not_mem_nil, or_false] at hc
  rcases hc with h | h <;> subst h <;> apply hexChar_ascii <;> omega

/-- The bytes of a rendering with a separator are the character codes of its
hex digits, joined by the code of the separator. -/
theorem bytes_sepRendering (sep : Char) (hsep : sep.toNat < 0x80) (us : List (Bool × Bool))
    (hw : List Nat) (hb : ∀ b ∈ hw, b < 256) :
    bytes (sepRendering sep us hw) =
      joinSep sep.toNat ((List.zipWith octetText us hw).map (List.map Char.toNat)) := by
  rw [bytes_ascii, sepRendering, joinSep_map]
  intro c hc
  rcases mem_joinSep _ _ _ hc with h | ⟨t, ht, hct⟩
  · rw [h]; exact hsep
  · obtain ⟨u, b, hbm, rfl⟩ := mem_zipWith_octetText hw us t ht
    exact octetText_ascii u b (hb b hbm) c hct

theorem length_sepRendering (sep : Char) (hsep : sep.toNat < 0x80) (us : List (Bool × Bool))
    (hw : List Nat) (hlen : us.length = hw.length) (hb : ∀ b ∈ hw, b < 256) (hne : hw ≠ []) :
    (bytes (sepRendering sep us hw)).length + 1 = 3 * hw.length := by
  rw [bytes_sepRendering sep hsep us hw hb]
  have h := length_joinSep_two sep.toNat ((List.zipWith octetText us hw).map (List.map Char.toNat))
    (by
      intro t ht
      obtain ⟨t0, ht0, rfl⟩ := List.mem_map.1 ht
      obtain ⟨u, b, _, rfl⟩ := mem_zipWith_octetText hw us t0 ht0
      simp [octetText])
    (by
      cases hw with
      | nil => exact absurd rfl hne
      | cons b hw =>
        cases us with
        | nil => simp at hlen
        | cons u us => simp)
  simpa [hlen] using h

theorem getD_two_sepRendering (sep : Char) (hsep : sep.toNat < 0x80) (us : List (Bool × Bool))
    (hw : List Nat) (hlen : us.length = hw.length) (hb : ∀ b ∈ hw, b < 256)
    (h2 : 2 ≤ hw.length) : (bytes (sepRendering sep us hw)).getD 2 0 = sep.toNat := by
  rw [bytes_sepRendering sep hsep us hw hb]
  match hw, us, hlen, h2 with
  | b :: b' :: hw, u :: u' :: us, _, _ =>
    simp [joinSep, octetText]

/-- The function `net.ParseMAC` reads the octets back from every rendering of
6, 8 or 20 octets with colons or with hyphens, in any letter case. -/
theorem ParseMAC_sepRendering (sep : Char) (hsep : sep = ':' ∨ sep = '-')
    (us : List (Bool × Bool)) (hw : List Nat) (hlen : us.length = hw.length)
    (hn : hw.length = 6 ∨ hw.length = 8 ∨ hw.length = 20) (hb : ∀ b ∈ hw, b < 256) :
    ParseMAC (sepRendering sep us hw) = .ok hw := by
  have hascii : sep.toNat < 0x80 := by rcases hsep with h | h <;> subst h <;> decide
  have hne : hw ≠ [] := by
    intro h; subst h; simp at hn
  have hL := length_sepRendering sep hascii us hw hlen hb hne
  have h2 := getD_two_sepRendering sep hascii us hw hlen hb (by omega)
  have hsp : (bytes (sepRendering sep us hw)).getD 2 0 = 0x3A ∨
      (bytes (sepRendering sep us hw)).getD 2 0 = 0x2D := by
    rw [h2]; rcases hsep with h | h <;> subst h <;> decide
  have hloop := parseSepLoop_joinSep (bytes (sepRendering sep us hw)) sep.toNat h2 hw us 0 hlen hb
    (by rw [List.drop_zero]; exact bytes_sepRendering sep hascii us hw hb)
  have hdiv : ((bytes (sepRendering sep us hw)).length + 1) / 3 = hw.length := by omega
  have hmod : ((bytes (sepRendering sep us hw)).length + 1) % 3 = 0 := by omega
  have h14 : ¬ (bytes (sepRendering sep us hw)).length < 14 := by omega
  have hnn : ¬ (hw.length ≠ 6 ∧ hw.length ≠ 8 ∧ hw.length ≠ 20) := by omega
  simp only [ParseMAC, h14, if_false, hsp, if_true, hmod, ne_eq, not_true_eq_false, hdiv, hnn,
    hloop]


/-! ## The canonical form -/

theorem joinSep_cons {α : Type} (sep : α) (t : List α) (ts : List (List α)) :
    joinSep sep (t :: ts) = t ++ ts.flatMap (fun t' => sep :: t') := by
  induction ts generalizing t with
  | nil => simp [joinSep]
  | cons t' ts ih => rw [joinSep, ih t']; simp

theorem hwStringLoop_pos (l : List Nat) (i : Nat) (hi : 0 < i) (buf : GoString) :
    hwStringLoop l i buf =
      buf ++ (l.map (octetText (false, false))).flatMap (fun t => ':' :: t) := by
  induction l generalizing i buf with
  | nil => simp [hwStringLoop]
  | cons b l ih =>
    rw [hwStringLoop]
    simp only [gt_iff_lt, hi, if_true]
    rw [ih (i + 1) (Nat.succ_pos i)]
    simp [octetText, hexChar]

/-- The method `net.HardwareAddr.String` prints the canonical form. -/
theorem HardwareAddr_String_eq (hw : List Nat) : HardwareAddr.String hw = canonicalMAC hw := by
  cases hw with
  | nil => rfl
  | cons b l =>
    rw [HardwareAddr.String, if_neg (by simp), hwStringLoop]
    simp only [gt_iff_lt, Nat.lt_irrefl, if_false]
    rw [hwStringLoop_pos l (0 + 1) (Nat.succ_pos 0), canonicalMAC, List.map_cons, joinSep_cons]
    simp [octetText, hexChar]

theorem zipWith_octetText_replicate (u : Bool × Bool) (hw : List Nat) :
    List.zipWith octetText (List.replicate hw.length u) hw = hw.map (octetText u) := by
  induction hw with
  | nil => rfl
  | cons b hw ih => simp [List.replicate_succ, ih]

/-- The canonical form is the colon rendering in lower case. -/
theorem canonicalMAC_eq_sepRendering (hw : List Nat) :
    canonicalMAC hw = sepRendering ':' (List.replicate hw.length (false, false)) hw := by
  rw [sepRendering, zipWith_octetText_replicate, canonicalMAC]

/-- Parsing the canonical form of 6, 8 or 20 octets gives the octets back. -/
theorem ParseMAC_canonicalMAC (hw : List Nat)
    (hn : hw.length = 6 ∨ hw.length = 8 ∨ hw.length = 20) (hb : ∀ b ∈ hw, b < 256) :
    ParseMAC (canonicalMAC hw) = .ok hw := by
  rw [canonicalMAC_eq_sepRendering]
  exact ParseMAC_sepRendering ':' (Or.inl rfl) _ hw (by simp) hn hb

/-! ## What `net.ParseMAC` returns -/

theorem xtoi2_lt (s : List Nat) (e : Nat) : (xtoi2 s e).1 < 256 := by
  unfold xtoi2
  split
  · decide
  · exact Nat.mod_lt _ (by decide)

theorem parseSepLoop_spec (s : List Nat) (k x : Nat) (hw : List Nat)
    (h : parseSepLoop s k x = some hw) : hw.length = k ∧ ∀ b ∈ hw, b < 256 := by
  induction k generalizing x hw with
  | zero =>
    simp only [parseSepLoop, Option.some.injEq] at h
    subst h; simp
  | succ k ih =>
    rw [parseSepLoop] at h
    have hv := xtoi2_lt (s.drop x) (s.getD 2 0)
    rcases hx : xtoi2 (s.drop x) (s.getD 2 0) with ⟨v, ok⟩
    rw [hx] at h hv
    cases ok with
    | false => simp at h
    | true =>
      simp only [Option.map_eq_some'] at h
      obtain ⟨hw1, h1, rfl⟩ := h
      obtain ⟨hl, hbd⟩ := ih (x + 3) hw1 h1
      refine ⟨by simp [hl], ?_⟩
      intro b hbm
      rcases List.mem_cons.1 hbm with h2 | h2
      · rw [h2]; exact hv
      · exact hbd b h2

theorem parseDotLoop_spec (s : List Nat) (k x : Nat) (hw : List Nat)
    (h : parseDotLoop s k x = some hw) : hw.length = 2 * k ∧ ∀ b ∈ hw, b < 256 := by
  induction k generalizing x hw with
  | zero =>
    simp only [parseDotLoop, Option.some.injEq] at h
    subst h; simp
  | succ k ih =>
    rw [parseDotLoop] at h
    have hv := xtoi2_lt ((s.drop x).take 2) 0
    have hw2 := xtoi2_lt (s.drop (x + 2)) (s.getD 4 0)
    rcases hx : xtoi2 ((s.drop x).take 2) 0 with ⟨v, ok⟩
    rcases hy : xtoi2 (s.drop (x + 2)) (s.getD 4 0) with ⟨w, ok2⟩
    rw [hx] at h hv
    rw [hy] at hw2
    cases ok with
    | false => simp at h
    | true =>
      simp only [hy] at h
      cases ok2 with
      | false => simp at h
      | true =>
        simp only [Option.map_eq_some'] at h
        obtain ⟨hw1, h1, rfl⟩ := h
        obtain ⟨hl, hbd⟩ := ih (x + 5) hw1 h1
        refine ⟨by simp [hl]; omega, ?_⟩
        intro b hbm
        rcases List.mem_cons.1 hbm with h2 | h2
        · rw [h2]; exact hv
        · rcases List.mem_cons.1 h2 with h3 | h3
          · rw [h3]; exact hw2
          · exact hbd b h3

/-- A hardware address returned by `net.ParseMAC` has 6, 8 or 20 octets, each
below 256. -/
theorem ParseMAC_ok (str : GoString) (hw : List Nat) (h : ParseMAC str = .ok hw) :
    (hw.length = 6 ∨ hw.length = 8 ∨ hw.length = 20) ∧ ∀ b ∈ hw, b < 256 := by
  unfold ParseMAC at h
  simp only at h
  split at h
  · cases h
  · split at h
    · split at h
      · cases h
      · split at h
        · cases h
        · rename_i hn
          split at h
          · rename_i hw1 hloop
            cases h
            obtain ⟨hl, hbd⟩ := parseSepLoop_spec _ _ _ _ hloop
            exact ⟨by omega, hbd⟩
          · cases h
    · split at h
      · split at h
        · cases h
        · split at h
          · cases h
          · rename_i hn
            split at h
            · rename_i hw1 hloop
              cases h
              obtain ⟨hl, hbd⟩ := parseDotLoop_spec _ _ _ _ hloop
              exact ⟨by omega, hbd⟩
            · cases h
      · cases h

/-- An error returned by `net.ParseMAC` is the invalid-MAC-address error for
the text it was given. -/
theorem ParseMAC_error (str : GoString) (e : AddrError) (h : ParseMAC str = .error e) :
    e = { Err := "invalid MAC address".toList, Addr := str } := by
  unfold ParseMAC at h
  simp only at h
  repeat' split at h
  all_goals first
    | (cases h; rfl)
    | cases h


/-! ## Trimming -/

theorem dropWhile_append_of_all {α : Type} (p : α → Bool) (pre l : List α)
    (hpre : ∀ c ∈ pre, p c = true) (hl : ∀ c ∈ l.head?, p c = false) :
    (pre ++ l).dropWhile p = l := by
  induction pre with
  | nil =>
    cases l with
    | nil => rfl
    | cons c l => simp [List.dropWhile, hl c (by simp)]
  | cons c pre ih =>
    have hc := hpre c (List.mem_cons_self _ _)
    simp only [List.cons_append, List.dropWhile, hc]
    exact ih (fun d hd => hpre d (List.mem_cons_of_mem _ hd))

/-- Trimming removes white space around a text that holds none. -/
theorem TrimSpace_wrap (pre body post : GoString) (hpre : ∀ c ∈ pre, IsSpace c = true)
    (hpost : ∀ c ∈ post, IsSpace c = true) (hbody : ∀ c ∈ body, IsSpace c = false)
    (hne : body ≠ []) : TrimSpace (pre ++ body ++ post) = body := by
  have h1 : (pre ++ (body ++ post)).dropWhile IsSpace = body ++ post := by
    apply dropWhile_append_of_all _ _ _ hpre
    cases body with
    | nil => exact absurd rfl hne
    | cons c body =>
      intro d hd
      simp only [List.cons_append, List.head?_cons, Option.mem_def, Option.some.injEq] at hd
      subst hd
      exact hbody _ (List.mem_cons_self _ _)
  have h2 : (post.reverse ++ body.reverse).dropWhile IsSpace = body.reverse := by
    apply dropWhile_append_of_all
    · intro c hc; exact hpost c (List.mem_reverse.1 hc)
    · intro c hc
      have : c ∈ body.reverse := List.mem_of_mem_head? hc
      exact hbody c (List.mem_reverse.1 this)
  rw [TrimSpace, List.append_assoc, h1, List.reverse_append, h2, List.reverse_reverse]

theorem hexChar_not_space (u : Bool) (d : Nat) (hd : d < 16) : IsSpace (hexChar u d) = false := by
  interval_cases d <;> cases u <;> rfl

theorem octetText_not_space (u : Bool × Bool) (b : Nat) (hb : b < 256) :
    ∀ c ∈ octetText u b, IsSpace c = false := by
  intro c hc
  simp only [octetText, List.mem_cons, List.mem_singleton, List.not_mem_nil, or_false] at hc
  rcases hc with h | h <;> subst h <;> apply hexChar_not_space <;> omega

theorem sepRendering_not_space (sep : Char) (hsep : IsSpace sep = false)
    (us : List (Bool × Bool)) (hw : List Nat) (hb : ∀ b ∈ hw, b < 256) :
    ∀ c ∈ sepRendering sep us hw, IsSpace c = false := by
  intro c hc
  rcases mem_joinSep _ _ _ hc with h | ⟨t, ht, hct⟩
  · rw [h]; exact hsep
  · obtain ⟨u, b, hbm, rfl⟩ := mem_zipWith_octetText hw us t ht
    exact octetText_not_space u b (hb b hbm) c hct

theorem sepRendering_ne_nil (sep : Char) (us : List (Bool × Bool)) (hw : List Nat)
    (hlen : us.length = hw.length) (hne : hw ≠ []) : sepRendering sep us hw ≠ [] := by
  match hw, us, hlen, hne with
  | b :: hw, u :: us, _, _ =>
    rw [sepRendering, List.zipWith_cons_cons, joinSep_cons]
    simp [octetText]

/-- The function `SanitizeMACAddress` on a colon or hyphen rendering of 6, 8
or 20 octets, in any letter case and between any white space. -/
theorem Sanitize_sepRendering (sep : Char) (hsep : sep = ':' ∨ sep = '-')
    (us : List (Bool × Bool)) (hw : List Nat) (hlen : us.length = hw.length)
    (hn : hw.length = 6 ∨ hw.length = 8 ∨ hw.length = 20) (hb : ∀ b ∈ hw, b < 256)
    (pre post : GoString) (hpre : ∀ c ∈ pre, IsSpace c = true)
    (hpost : ∀ c ∈ post, IsSpace c = true) :
    SanitizeMACAddress (pre ++ sepRendering sep us hw ++ post) = .ok (canonicalMAC hw) := by
  have hns : IsSpace sep = false := by rcases hsep with h | h <;> subst h <;> rfl
  have hne : hw ≠ [] := by intro h; subst h; simp at hn
  rw [SanitizeMACAddress, TrimSpace_wrap pre _ post hpre hpost
    (sepRendering_not_space sep hns us hw hb) (sepRendering_ne_nil sep us hw hlen hne),
    ParseMAC_sepRendering sep hsep us hw hlen hn hb]
  simp only [HardwareAddr_String_eq]

/-- The canonical form of 6, 8 or 20 octets is a fixed point of
`SanitizeMACAddress`. -/
theorem Sanitize_canonicalMAC (hw : List Nat)
    (hn : hw.length = 6 ∨ hw.length = 8 ∨ hw.length = 20) (hb : ∀ b ∈ hw, b < 256) :
    SanitizeMACAddress (canonicalMAC hw) = .ok (canonicalMAC hw) := by
  have h := Sanitize_sepRendering ':' (Or.inl rfl) (List.replicate hw.length (false, false)) hw
    (by simp) hn hb [] [] (by simp) (by simp)
  rw [← canonicalMAC_eq_sepRendering] at h
  simpa using h

/-- A successful result of `SanitizeMACAddress` is the canonical form of 6, 8
or 20 octets. -/
theorem Sanitize_ok (mac r : GoString) (h : SanitizeMACAddress mac = .ok r) :
    ∃ hw : List Nat, (hw.length = 6 ∨ hw.length = 8 ∨ hw.length = 20) ∧ (∀ b ∈ hw, b < 256) ∧
      ParseMAC (TrimSpace mac) = .ok hw ∧ r = canonicalMAC hw := by
  unfold SanitizeMACAddress at h
  split at h
  · cases h
  · rename_i hw hp
    cases h
    obtain ⟨hl, hbd⟩ := ParseMAC_ok _ _ hp
    exact ⟨hw, hl, hbd, hp, HardwareAddr_String_eq hw⟩

/-- The dot-grouped rendering of six octets. -/
theorem Sanitize_dotRendering_six (us : List (Bool × Bool)) (hw : List Nat)
    (hlen : us.length = hw.length) (hn : hw.length = 6) (hb : ∀ b ∈ hw, b < 256)
    (pre post : GoString) (hpre : ∀ c ∈ pre, IsSpace c = true)
    (hpost : ∀ c ∈ post, IsSpace c = true) :
    SanitizeMACAddress (pre ++ dotRendering us hw ++ post) = .ok (canonicalMAC hw) := by
  match hw, us, hlen, hn with
  | [a, b, c, d, e, f], [u1, u2, u3, u4, u5, u6], _, _ =>
    have ha : a < 256 := hb a (by simp)
    have hb1 : b < 256 := hb b (by simp)
    have hc : c < 256 := hb c (by simp)
    have hd : d < 256 := hb d (by simp)
    have he : e < 256 := hb e (by simp)
    have hf : f < 256 := hb f (by simp)
    have hbody : dotRendering [u1, u2, u3, u4, u5, u6] [a, b, c, d, e, f] =
        octetText u1 a ++ octetText u2 b ++ '.' :: (octetText u3 c ++ octetText u4 d ++
          '.' :: (octetText u5 e ++ octetText u6 f)) := by
      simp [dotRendering, pairUp, joinSep]
    have hdot : IsSpace '.' = false := rfl
    have hns : ∀ x ∈ dotRendering [u1, u2, u3, u4, u5, u6] [a, b, c, d, e, f],
        IsSpace x = false := by
      intro x hx
      rw [hbody] at hx
      simp only [List.mem_append, List.mem_cons] at hx
      rcases hx with (h | h) | h | (h | h) | h | h | h
      · exact octetText_not_space _ _ ha _ h
      · exact octetText_not_space _ _ hb1 _ h
      · rw [h]; rfl
      · exact octetText_not_space _ _ hc _ h
      · exact octetText_not_space _ _ hd _ h
      · rw [h]; rfl
      · exact octetText_not_space _ _ he _ h
      · exact octetText_not_space _ _ hf _ h
    have hascii : ∀ x ∈ dotRendering [u1, u2, u3, u4, u5, u6] [a, b, c, d, e, f],
        x.toNat < 0x80 := by
      intro x hx
      rw [hbody] at hx
      simp only [List.mem_append, List.mem_cons] at hx
      rcases hx with (h | h) | h | (h | h) | h | h | h
      · exact octetText_ascii _ _ ha _ h
      · exact octetText_ascii _ _ hb1 _ h
      · rw [h]; decide
      · exact octetText_ascii _ _ hc _ h
      · exact octetText_ascii _ _ hd _ h
      · rw [h]; decide
      · exact octetText_ascii _ _ he _ h
      · exact octetText_ascii _ _ hf _ h
    have hbytes : bytes (dotRendering [u1, u2, u3, u4, u5, u6] [a, b, c, d, e, f]) =
        [hexCode u1.1 (a / 16), hexCode u1.2 (a % 16), hexCode u2.1 (b / 16),
          hexCode u2.2 (b % 16), 0x2E, hexCode u3.1 (c / 16), hexCode u3.2 (c % 16),
          hexCode u4.1 (d / 16), hexCode u4.2 (d % 16), 0x2E, hexCode u5.1 (e / 16),
          hexCode u5.2 (e % 16), hexCode u6.1 (f / 16), hexCode u6.2 (f % 16)] := by
      rw [bytes_ascii _ hascii, hbody]
      simp only [List.map_append, List.map_cons, octetText_codes _ _ ha, octetText_codes _ _ hb1,
        octetText_codes _ _ hc, octetText_codes _ _ hd, octetText_codes _ _ he,
        octetText_codes _ _ hf]
      rfl
    have h2 : hexCode u2.1 (b / 16) ≠ 0x3A ∧ hexCode u2.1 (b / 16) ≠ 0x2D := by
      have : b / 16 < 16 := by omega
      unfold hexCode
      split <;> [omega; (split <;> omega)]
    rw [SanitizeMACAddress, TrimSpace_wrap pre _ post hpre hpost hns (by rw [hbody]; simp [octetText])]
    have hparse : ParseMAC (dotRendering [u1, u2, u3, u4, u5, u6] [a, b, c, d, e, f]) =
        .ok [a, b, c, d, e, f] := by
      simp only [ParseMAC, hbytes, List.length_cons, List.length_nil, List.getD_cons_succ,
        List.getD_cons_zero, h2.1, h2.2, parseDotLoop, List.drop, List.take, List.drop_zero]
      simp [xtoi2_codes _ _ _ ha [] 0 (Or.inl rfl),
        xtoi2_codes _ _ _ hb1 (0x2E :: _) 0x2E (Or.inr rfl),
        xtoi2_codes _ _ _ hc [] 0 (Or.inl rfl),
        xtoi2_codes _ _ _ hd (0x2E :: _) 0x2E (Or.inr rfl),
        xtoi2_codes _ _ _ he [] 0 (Or.inl rfl),
        xtoi2_codes _ _ _ hf [] 0x2E (Or.inl rfl), parseDotLoop]
    rw [hparse]
    simp only [HardwareAddr_String_eq]


/-! ## The byte-wise reverse -/

theorem hexChar_ne_colon (u : Bool) (d : Nat) (hd : d < 16) : hexChar u d ≠ ':' := by
  interval_cases d <;> cases u <;> decide

theorem ReplaceAll_octetText (u : Bool × Bool) (b : Nat) (hb : b < 256) :
    ReplaceAll (octetText u b) ':' [] = octetText u b := by
  have h1 := hexChar_ne_colon u.1 (b / 16) (by omega)
  have h2 := hexChar_ne_colon u.2 (b % 16) (by omega)
  simp [ReplaceAll, octetText, h1, h2]

theorem ReplaceAll_append (s t : GoString) (old : Char) (new : GoString) :
    ReplaceAll (s ++ t) old new = ReplaceAll s old new ++ ReplaceAll t old new := by
  simp [ReplaceAll]

/-- Removing the colons of the canonical form leaves the hex digits of the
octets, two for each. -/
theorem ReplaceAll_canonicalMAC (hw : List Nat) (hb : ∀ b ∈ hw, b < 256) :
    ReplaceAll (canonicalMAC hw) ':' [] = (hw.map (octetText (false, false))).flatten := by
  cases hw with
  | nil => rfl
  | cons b hw =>
    rw [canonicalMAC, List.map_cons, joinSep_cons, ReplaceAll_append,
      ReplaceAll_octetText _ b (hb b (List.mem_cons_self _ _)), List.flatten_cons]
    congr 1
    have hb1 : ∀ c ∈ hw, c < 256 := fun c hc => hb c (List.mem_cons_of_mem _ hc)
    clear hb
    induction hw with
    | nil => rfl
    | cons c hw ih =>
      rw [List.map_cons, List.flatMap_cons, ReplaceAll_append, List.flatten_cons,
        ih (fun d hd => hb1 d (List.mem_cons_of_mem _ hd))]
      have h3 : ReplaceAll (':' :: octetText (false, false) c) ':' [] =
          octetText (false, false) c := by
        have := ReplaceAll_octetText (false, false) c (hb1 c (List.mem_cons_self _ _))
        rw [show (':' :: octetText (false, false) c) = [':'] ++ octetText (false, false) c from rfl,
          ReplaceAll_append, this]
        rfl
      rw [h3]

theorem length_digits (l : List Nat) :
    ((l.map (octetText (false, false))).flatten).length = 2 * l.length := by
  induction l with
  | nil => rfl
  | cons b l ih => simp [List.flatten_cons, octetText, ih]; omega

/-- The loop of `macAddressBytewiseReverse`, started after the octets `p` of
the digit string of `p ++ suf`, writes the canonical form of `p` reversed. -/
theorem reverseLoop_digits (p suf : List Nat) (buf : GoString) :
    reverseLoop (((p ++ suf).map (octetText (false, false))).flatten) (2 * p.length) buf =
      some (buf ++ canonicalMAC p.reverse) := by
  induction p using List.reverseRecOn generalizing suf buf with
  | nil => simp [reverseLoop, canonicalMAC, joinSep]
  | append_singleton p b ih =>
    have hlen : 2 * (p ++ [b]).length = 2 * p.length + 2 := by simp; omega
    have hmac : ((p ++ [b] ++ suf).map (octetText (false, false))).flatten =
        (p.map (octetText (false, false))).flatten ++
          (octetText (false, false) b ++ (suf.map (octetText (false, false))).flatten) := by
      simp
    have hslice : slice (((p ++ [b] ++ suf).map (octetText (false, false))).flatten)
        (((2 * p.length + 2 : Nat) : Int) - 2) ((2 * p.length + 2 : Nat) : Int) =
        some (octetText (false, false) b) := by
      have hL := length_digits (p ++ [b] ++ suf)
      have hc : 0 ≤ ((2 * p.length + 2 : Nat) : Int) - 2 ∧
          ((2 * p.length + 2 : Nat) : Int) - 2 ≤ ((2 * p.length + 2 : Nat) : Int) ∧
          ((2 * p.length + 2 : Nat) : Int) ≤
            ((((p ++ [b] ++ suf).map (octetText (false, false))).flatten).length : Int) := by
        rw [hL]; simp only [List.length_append, List.length_cons, List.length_nil]; omega
      have h1 : (((2 * p.length + 2 : Nat) : Int) - 2).toNat = 2 * p.length := by omega
      have h2 : (((2 * p.length + 2 : Nat) : Int) - (((2 * p.length + 2 : Nat) : Int) - 2)).toNat
          = 2 := by omega
      rw [slice, if_pos hc, h1, h2, hmac]
      have h3 : 2 * p.length = ((p.map (octetText (false, false))).flatten).length :=
        (length_digits p).symm
      rw [h3, List.drop_left]
      rfl
    rw [hlen, reverseLoop, hslice]
    simp only
    have hmac2 : ((p ++ [b] ++ suf).map (octetText (false, false))).flatten =
        ((p ++ (b :: suf)).map (octetText (false, false))).flatten := by simp
    rw [hmac2, ih (b :: suf)]
    congr 1
    rw [List.reverse_append, List.reverse_singleton, List.singleton_append]
    cases hp : p.reverse with
    | nil =>
      have : p = [] := by simpa using hp
      subst this
      simp [canonicalMAC, joinSep]
    | cons q qs =>
      have hpl : 0 < p.length := by
        have := congrArg List.length hp
        simp at this; omega
      have hgt : 2 * p.length + 2 > 2 := by omega
      simp only [hgt, if_true, canonicalMAC, List.map_cons, joinSep_cons, List.flatMap_cons,
        List.append_assoc, List.singleton_append, List.cons_append, List.nil_append]

/-- The function `macAddressBytewiseReverse` on an input that sanitizes to the
canonical form of `hw`. -/
theorem reverse_of_sanitize (mac : GoString) (hw : List Nat) (hb : ∀ b ∈ hw, b < 256)
    (h : SanitizeMACAddress mac = .ok (canonicalMAC hw)) :
    macAddressBytewiseReverse mac = some (.ok (canonicalMAC hw.reverse)) := by
  rw [macAddressBytewiseReverse, h]
  simp only
  rw [ReplaceAll_canonicalMAC hw hb, length_digits]
  have := reverseLoop_digits hw [] []
  rw [List.append_nil] at this
  rw [this]
  rfl


/-! ## The rebuild of the map -/

theorem lookup_append_singleton (m : List (GoString × GoString)) (k v c : GoString) :
    (m ++ [(k, v)]).lookup c =
      match m.lookup c with
      | some x => some x
      | none => if c = k then some v else none := by
  induction m with
  | nil =>
    by_cases h : c = k
    · subst h; simp [List.lookup]
    · have : (c == k) = false := by simpa using h
      simp [List.lookup, this, h]
  | cons p m ih =>
    obtain ⟨k1, v1⟩ := p
    by_cases h : c = k1
    · subst h; simp [List.lookup]
    · have : (c == k1) = false := by simpa using h
      simp only [List.cons_append, List.lookup, this]
      exact ih

/-- One token never changes the group of a MAC address that has one. -/
theorem updateToken_keep (secretName : GoString)
    (acc : List (GoString × GoString) × List LogEntry) (mac c g : GoString)
    (h : mapGet acc.1 c = some g) : mapGet (updateToken secretName acc mac).1 c = some g := by
  unfold updateToken
  split
  · exact h
  · rename_i sanitized _
    split
    · exact h
    · rename_i hnone
      simp only [mapSet, mapGet] at hnone ⊢
      rw [hnone]
      simp only
      rw [mapGet] at h
      rw [lookup_append_singleton, h]

/-- A token with another canonical form, or none, leaves a MAC address without
a group. -/
theorem updateToken_none (secretName : GoString)
    (acc : List (GoString × GoString) × List LogEntry) (mac c : GoString)
    (h : mapGet acc.1 c = none) (hne : SanitizeMACAddress mac ≠ .ok c) :
    mapGet (updateToken secretName acc mac).1 c = none := by
  unfold updateToken
  split
  · exact h
  · rename_i sanitized hs
    have hc : c ≠ sanitized := by
      intro hcs; subst hcs; exact hne hs
    split
    · exact h
    · rename_i hnone
      simp only [mapSet, mapGet] at hnone ⊢
      rw [hnone]
      simp only
      rw [mapGet] at h
      rw [lookup_append_singleton, h]
      simp [hc]

/-- A token with the canonical form `c` gives `c` the group of the token when
`c` has none yet. -/
theorem updateToken_claim (secretName : GoString)
    (acc : List (GoString × GoString) × List LogEntry) (mac c : GoString)
    (h : mapGet acc.1 c = none) (hs : SanitizeMACAddress mac = .ok c) :
    mapGet (updateToken secretName acc mac).1 c = some secretName := by
  unfold updateToken
  rw [hs]
  simp only [h]
  simp only [mapSet, mapGet] at h ⊢
  rw [h]
  simp only
  rw [lookup_append_singleton, h]
  simp

theorem foldl_updateToken_keep (secretName : GoString) (toks : List GoString)
    (acc : List (GoString × GoString) × List LogEntry) (c g : GoString)
    (h : mapGet acc.1 c = some g) :
    mapGet (toks.foldl (updateToken secretName) acc).1 c = some g := by
  induction toks generalizing acc with
  | nil => exact h
  | cons t toks ih => exact ih _ (updateToken_keep secretName acc t c g h)

theorem foldl_updateToken_none (secretName : GoString) (toks : List GoString)
    (acc : List (GoString × GoString) × List LogEntry) (c : GoString)
    (h : mapGet acc.1 c = none) (hne : ∀ t ∈ toks, SanitizeMACAddress t ≠ .ok c) :
    mapGet (toks.foldl (updateToken secretName) acc).1 c = none := by
  induction toks generalizing acc with
  | nil => exact h
  | cons t toks ih =>
    exact ih _ (updateToken_none secretName acc t c h (hne t (List.mem_cons_self _ _)))
      (fun t1 h1 => hne t1 (List.mem_cons_of_mem _ h1))

theorem foldl_updateToken_claim (secretName : GoString) (toks : List GoString)
    (acc : List (GoString × GoString) × List LogEntry) (c : GoString)
    (h : mapGet acc.1 c = none) (hex : ∃ t ∈ toks, SanitizeMACAddress t = .ok c) :
    mapGet (toks.foldl (updateToken secretName) acc).1 c = some secretName := by
  induction toks generalizing acc with
  | nil => obtain ⟨t, ht, _⟩ := hex; simp at ht
  | cons t toks ih =>
    by_cases hs : SanitizeMACAddress t = .ok c
    · exact foldl_updateToken_keep secretName toks _ c secretName
        (updateToken_claim secretName acc t c h hs)
    · refine ih _ (updateToken_none secretName acc t c h hs) ?_
      obtain ⟨t1, ht1, hs1⟩ := hex
      rcases List.mem_cons.1 ht1 with h2 | h2
      · subst h2; exact absurd hs1 hs
      · exact ⟨t1, h2, hs1⟩

theorem updateGroup_keep (ctx : Context) (sdk : DeviceServiceSDK)
    (acc : List (GoString × GoString) × List LogEntry) (entry : GoString × GoString)
    (c g : GoString) (h : mapGet acc.1 c = some g) :
    mapGet (updateGroup ctx sdk acc entry).1 c = some g :=
  foldl_updateToken_keep _ _ _ c g h

theorem updateGroup_none (ctx : Context) (sdk : DeviceServiceSDK)
    (acc : List (GoString × GoString) × List LogEntry) (entry : GoString × GoString)
    (c : GoString) (h : mapGet acc.1 c = none)
    (hne : ∀ t ∈ Split entry.2 ',', SanitizeMACAddress t ≠ .ok c) :
    mapGet (updateGroup ctx sdk acc entry).1 c = none :=
  foldl_updateToken_none _ _ _ c h hne

theorem updateGroup_claim (ctx : Context) (sdk : DeviceServiceSDK)
    (acc : List (GoString × GoString) × List LogEntry) (entry : GoString × GoString)
    (c : GoString) (h : mapGet acc.1 c = none)
    (hex : ∃ t ∈ Split entry.2 ',', SanitizeMACAddress t = .ok c) :
    mapGet (updateGroup ctx sdk acc entry).1 c = some entry.1 :=
  foldl_updateToken_claim _ _ _ c h hex

theorem foldl_updateGroup_keep (ctx : Context) (sdk : DeviceServiceSDK)
    (raw : List (GoString × GoString)) (acc : List (GoString × GoString) × List LogEntry)
    (c g : GoString) (h : mapGet acc.1 c = some g) :
    mapGet (raw.foldl (updateGroup ctx sdk) acc).1 c = some g := by
  induction raw generalizing acc with
  | nil => exact h
  | cons e raw ih => exact ih _ (updateGroup_keep ctx sdk acc e c g h)

theorem foldl_updateGroup_none (ctx : Context) (sdk : DeviceServiceSDK)
    (raw : List (GoString × GoString)) (acc : List (GoString × GoString) × List LogEntry)
    (c : GoString) (h : mapGet acc.1 c = none)
    (hne : ∀ e ∈ raw, ∀ t ∈ Split e.2 ',', SanitizeMACAddress t ≠ .ok c) :
    mapGet (raw.foldl (updateGroup ctx sdk) acc).1 c = none := by
  induction raw generalizing acc with
  | nil => exact h
  | cons e raw ih =>
    exact ih _ (updateGroup_none ctx sdk acc e c h (hne e (List.mem_cons_self _ _)))
      (fun e1 h1 => hne e1 (List.mem_cons_of_mem _ h1))

/-- First claim wins: after the rebuild a MAC address has the group of the
first entry, in visiting order, that lists a token with its canonical form. -/
theorem UpdateMappings_first (ctx : Context) (m : MACAddressMapper)
    (pre post : List (GoString × GoString)) (entry : GoString × GoString) (c : GoString)
    (hpre : ∀ e ∈ pre, ∀ t ∈ Split e.2 ',', SanitizeMACAddress t ≠ .ok c)
    (hex : ∃ t ∈ Split entry.2 ',', SanitizeMACAddress t = .ok c) :
    mapGet (UpdateMappings ctx m (pre ++ entry :: post)).1.credsMap c = some entry.1 := by
  simp only [UpdateMappings, List.foldl_append, List.foldl_cons]
  apply foldl_updateGroup_keep
  apply updateGroup_claim _ _ _ _ _ _ hex
  exact foldl_updateGroup_none ctx m.sdkService pre _ c rfl hpre

/-- Every list with an entry claiming `c` splits at the first such entry. -/
theorem exists_first_claim (raw : List (GoString × GoString)) (c : GoString)
    (hex : ∃ e ∈ raw, ∃ t ∈ Split e.2 ',', SanitizeMACAddress t = .ok c) :
    ∃ pre entry post, raw = pre ++ entry :: post ∧
      (∀ e ∈ pre, ∀ t ∈ Split e.2 ',', SanitizeMACAddress t ≠ .ok c) ∧
      ∃ t ∈ Split entry.2 ',', SanitizeMACAddress t = .ok c := by
  induction raw with
  | nil => obtain ⟨e, he, _⟩ := hex; simp at he
  | cons e0 raw ih =>
    by_cases h0 : ∃ t ∈ Split e0.2 ',', SanitizeMACAddress t = .ok c
    · exact ⟨[], e0, raw, rfl, by simp, h0⟩
    · have hex1 : ∃ e ∈ raw, ∃ t ∈ Split e.2 ',', SanitizeMACAddress t = .ok c := by
        obtain ⟨e, he, ht⟩ := hex
        rcases List.mem_cons.1 he with h | h
        · subst h; exact absurd ht h0
        · exact ⟨e, h, ht⟩
      obtain ⟨pre, entry, post, hraw, hpre, hent⟩ := ih hex1
      refine ⟨e0 :: pre, entry, post, by simp [hraw], ?_, hent⟩
      intro e he t ht hs
      rcases List.mem_cons.1 he with h | h
      · subst h; exact h0 ⟨t, ht, hs⟩
      · exact hpre e h t ht hs


/-! ## The claims -/

/-- C1: a text holding the hex digits of the byte-reversed form of a known MAC
address without delimiters is expected to match that address.  On the code it
does not: with `aa:bb:cc:dd:ee:ff` as the only key, the text `ffeeddccbbaa` is
answered with the empty string, because the reversed address is compared with
its colons (`ff:ee:dd:cc:bb:aa`, which does match), while the forward
comparison strips them. -/
theorem match_reversed_digits_not_found (ctx : Context) (sdk : DeviceServiceSDK) :
    (MatchEndpointRefAddressToMAC ctx
        (UpdateMappings ctx (NewMACAddressMapper sdk)
          [("g1".toList, "aa:bb:cc:dd:ee:ff".toList)]).1 "ffeeddccbbaa".toList
      = some ([], [])) ∧
    (MatchEndpointRefAddressToMAC ctx
        (UpdateMappings ctx (NewMACAddressMapper sdk)
          [("g1".toList, "aa:bb:cc:dd:ee:ff".toList)]).1 "ff:ee:dd:cc:bb:aa".toList
      = some ("aa:bb:cc:dd:ee:ff".toList, [])) ∧
    (MatchEndpointRefAddressToMAC ctx
        (UpdateMappings ctx (NewMACAddressMapper sdk)
          [("g1".toList, "aa:bb:cc:dd:ee:ff".toList)]).1 "AABB-CCDD-EEFF".toList
      = some ("aa:bb:cc:dd:ee:ff".toList, [])) :=
  ⟨rfl, rfl, rfl⟩


/-- C2: for every six octets, the colon-separated, the hyphen-separated and
the dot-grouped rendering, each in any letter case and between any leading and
trailing white space, are accepted by `SanitizeMACAddress`, and all give the
canonical form of the octets: lower-case two-digit hex joined by colons. -/
theorem sanitize_variants_canonical (hw : List Nat) (hsix : hw.length = 6)
    (hb : ∀ b ∈ hw, b < 256) (us : List (Bool × Bool)) (hus : us.length = 6)
    (pre post : GoString) (hpre : ∀ c ∈ pre, IsSpace c = true)
    (hpost : ∀ c ∈ post, IsSpace c = true) :
    SanitizeMACAddress (pre ++ sepRendering ':' us hw ++ post) = .ok (canonicalMAC hw) ∧
    SanitizeMACAddress (pre ++ sepRendering '-' us hw ++ post) = .ok (canonicalMAC hw) ∧
    SanitizeMACAddress (pre ++ dotRendering us hw ++ post) = .ok (canonicalMAC hw) :=
  ⟨Sanitize_sepRendering ':' (Or.inl rfl) us hw (hus.trans hsix.symm) (Or.inl hsix) hb pre post
      hpre hpost,
    Sanitize_sepRendering '-' (Or.inr rfl) us hw (hus.trans hsix.symm) (Or.inl hsix) hb pre post
      hpre hpost,
    Sanitize_dotRendering_six us hw (hus.trans hsix.symm) hsix hb pre post hpre hpost⟩

/-- C2 at the octets aa bb cc dd ee ff, in mixed case, after a blank and a tab
and before a line feed. -/
theorem sanitize_variants_canonical_witness :
    SanitizeMACAddress " \tAa:bB:CC:dd:Ee:fF\n".toList = .ok "aa:bb:cc:dd:ee:ff".toList ∧
    SanitizeMACAddress " \tAa-bB-CC-dd-Ee-fF\n".toList = .ok "aa:bb:cc:dd:ee:ff".toList ∧
    SanitizeMACAddress " \tAabB.CCdd.EefF\n".toList = .ok "aa:bb:cc:dd:ee:ff".toList :=
  sanitize_variants_canonical [0xaa, 0xbb, 0xcc, 0xdd, 0xee, 0xff] rfl (by decide)
    [(true, false), (false, true), (true, true), (false, false), (true, false), (false, true)]
    rfl " \t".toList "\n".toList (by decide) (by decide)


/-- C3 (as the code has it): for every six octets, in any letter case, the
bare-hex rendering (twelve hex digits, no separator) is rejected by
`SanitizeMACAddress` with the invalid-MAC-address error of `net.ParseMAC`,
which wants at least 14 bytes; the colon-separated rendering of the same octets
gives the canonical lower-case colon form. -/
theorem sanitize_bare_hex_rejected (hw : List Nat) (hsix : hw.length = 6)
    (hb : ∀ b ∈ hw, b < 256) (us : List (Bool × Bool)) (hus : us.length = 6) :
    SanitizeMACAddress (bareRendering us hw) =
      .error { Err := "invalid MAC address".toList, Addr := bareRendering us hw } ∧
    SanitizeMACAddress (sepRendering ':' us hw) = .ok (canonicalMAC hw) := by
  refine ⟨?_, ?_⟩
  · match hw, us, hsix, hus with
    | [a, b, c, d, e, f], [u1, u2, u3, u4, u5, u6], _, _ =>
      have hbody : bareRendering [u1, u2, u3, u4, u5, u6] [a, b, c, d, e, f] =
          octetText u1 a ++ (octetText u2 b ++ (octetText u3 c ++ (octetText u4 d ++
            (octetText u5 e ++ octetText u6 f)))) := by
        simp [bareRendering]
      have hmem : ∀ x ∈ bareRendering [u1, u2, u3, u4, u5, u6] [a, b, c, d, e, f],
          ∃ u v, v < 256 ∧ x ∈ octetText u v := by
        intro x hx
        rw [hbody] at hx
        simp only [List.mem_append] at hx
        rcases hx with h | h | h | h | h | h
        · exact ⟨u1, a, hb a (by simp), h⟩
        · exact ⟨u2, b, hb b (by simp), h⟩
        · exact ⟨u3, c, hb c (by simp), h⟩
        · exact ⟨u4, d, hb d (by simp), h⟩
        · exact ⟨u5, e, hb e (by simp), h⟩
        · exact ⟨u6, f, hb f (by simp), h⟩
      have hns : ∀ x ∈ bareRendering [u1, u2, u3, u4, u5, u6] [a, b, c, d, e, f],
          IsSpace x = false := by
        intro x hx
        obtain ⟨u, v, hv, hxm⟩ := hmem x hx
        exact octetText_not_space u v hv x hxm
      have hascii : ∀ x ∈ bareRendering [u1, u2, u3, u4, u5, u6] [a, b, c, d, e, f],
          x.toNat < 0x80 := by
        intro x hx
        obtain ⟨u, v, hv, hxm⟩ := hmem x hx
        exact octetText_ascii u v hv x hxm
      have hlen : (bytes (bareRendering [u1, u2, u3, u4, u5, u6] [a, b, c, d, e, f])).length
          = 12 := by
        rw [bytes_ascii _ hascii, hbody]
        simp [octetText]
      have htrim := TrimSpace_wrap [] _ [] (by simp) (by simp) hns
        (show bareRendering [u1, u2, u3, u4, u5, u6] [a, b, c, d, e, f] ≠ [] by
          rw [hbody]; simp [octetText])
      rw [List.nil_append, List.append_nil] at htrim
      rw [SanitizeMACAddress, htrim]
      have hparse : ParseMAC (bareRendering [u1, u2, u3, u4, u5, u6] [a, b, c, d, e, f]) =
          .error { Err := "invalid MAC address".toList,
                   Addr := bareRendering [u1, u2, u3, u4, u5, u6] [a, b, c, d, e, f] } := by
        simp only [ParseMAC, hlen]
        rfl
      rw [hparse]
  · have h := Sanitize_sepRendering ':' (Or.inl rfl) us hw (hus.trans hsix.symm) (Or.inl hsix) hb
      [] [] (by simp) (by simp)
    simpa using h

/-- C3 at the octets aa bb cc dd ee ff. -/
theorem sanitize_bare_hex_rejected_witness :
    SanitizeMACAddress "aabbccddeeff".toList =
      .error { Err := "invalid MAC address".toList, Addr := "aabbccddeeff".toList } ∧
    SanitizeMACAddress "aa:bb:cc:dd:ee:ff".toList = .ok "aa:bb:cc:dd:ee:ff".toList :=
  sanitize_bare_hex_rejected [0xaa, 0xbb, 0xcc, 0xdd, 0xee, 0xff] rfl (by decide)
    (List.replicate 6 (false, false)) rfl

/-- C3 as stated fails at the octets aa bb cc dd ee ff: their bare-hex
rendering `aabbccddeeff` is not accepted, so it does not give the canonical form
`aa:bb:cc:dd:ee:ff` that the colon-separated rendering gives. -/
theorem sanitize_bare_hex_counterexample :
    bareRendering (List.replicate 6 (false, false)) [0xaa, 0xbb, 0xcc, 0xdd, 0xee, 0xff]
      = "aabbccddeeff".toList ∧
    sepRendering ':' (List.replicate 6 (false, false)) [0xaa, 0xbb, 0xcc, 0xdd, 0xee, 0xff]
      = "aa:bb:cc:dd:ee:ff".toList ∧
    SanitizeMACAddress "aa:bb:cc:dd:ee:ff".toList = .ok "aa:bb:cc:dd:ee:ff".toList ∧
    ¬ ∃ r, SanitizeMACAddress "aabbccddeeff".toList = .ok r := by
  refine ⟨rfl, rfl, rfl, ?_⟩
  rintro ⟨r, hr⟩
  have h : SanitizeMACAddress "aabbccddeeff".toList =
      .error { Err := "invalid MAC address".toList, Addr := "aabbccddeeff".toList } := rfl
  rw [h] at hr
  cases hr

/-- C4 (as the code has it): whenever `SanitizeMACAddress` succeeds, the result
is the canonical form of 6, 8 or 20 octets: so many lower-case two-digit hex
octets joined by colons, 17, 23 or 59 characters long.  No successful result
has any other number of octets. -/
theorem sanitize_result_canonical (mac r : GoString) (h : SanitizeMACAddress mac = .ok r) :
    ∃ hw : List Nat, (hw.length = 6 ∨ hw.length = 8 ∨ hw.length = 20) ∧
      (∀ b ∈ hw, b < 256) ∧ r = canonicalMAC hw ∧ r.length + 1 = 3 * hw.length := by
  obtain ⟨hw, hl, hbd, _, hr⟩ := Sanitize_ok mac r h
  refine ⟨hw, hl, hbd, hr, ?_⟩
  have hne : hw ≠ [] := by intro h0; subst h0; simp at hl
  have h1 := length_sepRendering ':' (by decide) (List.replicate hw.length (false, false)) hw
    (by simp) hbd hne
  rw [← canonicalMAC_eq_sepRendering, bytes_ascii, List.length_map] at h1
  · rw [hr]; exact h1
  · intro c hc
    rw [canonicalMAC] at hc
    rcases mem_joinSep _ _ _ hc with h2 | ⟨t, ht, hct⟩
    · rw [h2]; decide
    · obtain ⟨b, hbm, rfl⟩ := List.mem_map.1 ht
      exact octetText_ascii _ b (hbd b hbm) c hct

/-- C4 at the hyphen-separated, upper-case input `AA-BB-CC-DD-EE-FF`. -/
theorem sanitize_result_canonical_witness :
    ∃ hw : List Nat, (hw.length = 6 ∨ hw.length = 8 ∨ hw.length = 20) ∧
      (∀ b ∈ hw, b < 256) ∧ "aa:bb:cc:dd:ee:ff".toList = canonicalMAC hw ∧
      "aa:bb:cc:dd:ee:ff".toList.length + 1 = 3 * hw.length :=
  sanitize_result_canonical "AA-BB-CC-DD-EE-FF".toList "aa:bb:cc:dd:ee:ff".toList rfl

/-- C4 as stated fails at the EUI-64 input `02:00:5e:10:00:00:00:01`: it is
accepted and the result has eight octets and 23 characters, not six and 17. -/
theorem sanitize_eight_octets_counterexample :
    SanitizeMACAddress "02:00:5e:10:00:00:00:01".toList =
      .ok (canonicalMAC [0x02, 0x00, 0x5e, 0x10, 0x00, 0x00, 0x00, 0x01]) ∧
    canonicalMAC [0x02, 0x00, 0x5e, 0x10, 0x00, 0x00, 0x00, 0x01] =
      "02:00:5e:10:00:00:00:01".toList ∧
    [0x02, 0x00, 0x5e, 0x10, 0x00, 0x00, 0x00, 0x01].length = 8 ∧
    "02:00:5e:10:00:00:00:01".toList.length = 23 :=
  ⟨rfl, rfl, rfl, rfl⟩

/-- C5: for every input that `SanitizeMACAddress` accepts, the byte-wise
reverse succeeds, the byte-wise reverse of its result succeeds too, and the
second result is the sanitized input. -/
theorem reverse_twice_is_sanitize (mac s : GoString) (h : SanitizeMACAddress mac = .ok s) :
    ∃ r, macAddressBytewiseReverse mac = some (.ok r) ∧
      macAddressBytewiseReverse r = some (.ok s) := by
  obtain ⟨hw, hl, hbd, _, hs⟩ := Sanitize_ok mac s h
  subst hs
  have hbr : ∀ b ∈ hw.reverse, b < 256 := fun b hb => hbd b (List.mem_reverse.1 hb)
  refine ⟨canonicalMAC hw.reverse, reverse_of_sanitize mac hw hbd h, ?_⟩
  have h2 := reverse_of_sanitize (canonicalMAC hw.reverse) hw.reverse hbr
    (Sanitize_canonicalMAC hw.reverse (by simpa using hl) hbr)
  rw [List.reverse_reverse] at h2
  exact h2

/-- C5 at the input `12-34-56-78-9A-BC`. -/
theorem reverse_twice_is_sanitize_witness :
    ∃ r, macAddressBytewiseReverse "12-34-56-78-9A-BC".toList = some (.ok r) ∧
      macAddressBytewiseReverse r = some (.ok "12:34:56:78:9a:bc".toList) :=
  reverse_twice_is_sanitize "12-34-56-78-9A-BC".toList "12:34:56:78:9a:bc".toList rfl

/-- C6: the byte-wise reverse fails exactly when `SanitizeMACAddress` fails,
with the same error; when `SanitizeMACAddress` succeeds, its result is the
canonical form of some octets and the byte-wise reverse returns the canonical
form of these octets in reverse order (each octet keeps its two digits in
order, colons only between octets).  So `aa:bb:cc:dd:ee:ff` gives
`ff:ee:dd:cc:bb:aa` and `12:34:56:78:9a:bc` gives `bc:9a:78:56:34:12`. -/
theorem reverse_spec (mac : GoString) :
    (∀ e, macAddressBytewiseReverse mac = some (.error e) ↔ SanitizeMACAddress mac = .error e) ∧
    (∀ r, SanitizeMACAddress mac = .ok r →
      ∃ hw : List Nat, (hw.length = 6 ∨ hw.length = 8 ∨ hw.length = 20) ∧
        (∀ b ∈ hw, b < 256) ∧ r = canonicalMAC hw ∧
        macAddressBytewiseReverse mac = some (.ok (canonicalMAC hw.reverse))) ∧
    macAddressBytewiseReverse "aa:bb:cc:dd:ee:ff".toList = some (.ok "ff:ee:dd:cc:bb:aa".toList) ∧
    macAddressBytewiseReverse "12:34:56:78:9a:bc".toList = some (.ok "bc:9a:78:56:34:12".toList)
    := by
  refine ⟨?_, ?_, rfl, rfl⟩
  · intro e
    constructor
    · intro h
      cases hs : SanitizeMACAddress mac with
      | error e1 =>
        rw [macAddressBytewiseReverse, hs] at h
        simp only [Option.some.injEq, Except.error.injEq] at h
        rw [h]
      | ok r =>
        obtain ⟨hw, _, hbd, _, hr⟩ := Sanitize_ok mac r hs
        subst hr
        rw [reverse_of_sanitize mac hw hbd hs] at h
        simp at h
    · intro h
      rw [macAddressBytewiseReverse, h]
  · intro r hs
    obtain ⟨hw, hl, hbd, _, hr⟩ := Sanitize_ok mac r hs
    subst hr
    exact ⟨hw, hl, hbd, rfl, reverse_of_sanitize mac hw hbd hs⟩

/-- C6 at the malformed input `not-a-mac`: the byte-wise reverse fails with the
error of `SanitizeMACAddress`. -/
theorem reverse_spec_witness :
    macAddressBytewiseReverse "not-a-mac".toList =
      some (.error { Err := "invalid MAC address".toList, Addr := "not-a-mac".toList }) :=
  ((reverse_spec "not-a-mac".toList).1 _).2 rfl


/-- C7: when a token of the list of group `g` has the canonical form `c` and no
entry of another group lists a token with that canonical form, then after
`UpdateMappings` every MAC string with the canonical form `c`, in whatever
letter case or separator, resolves to `g`, for every default. -/
theorem resolve_after_update (ctx : Context) (m : MACAddressMapper)
    (raw : List (GoString × GoString)) (g macs token c : GoString)
    (hg : (g, macs) ∈ raw) (ht : token ∈ Split macs ',')
    (hs : SanitizeMACAddress token = .ok c)
    (hother : ∀ e ∈ raw, e.1 ≠ g → ∀ t ∈ Split e.2 ',', SanitizeMACAddress t ≠ .ok c)
    (mac d : GoString) (hm : SanitizeMACAddress mac = .ok c) :
    (TryGetSecretNameForMACAddress ctx (UpdateMappings ctx m raw).1 mac d).1 = g := by
  obtain ⟨pre, entry, post, hraw, hpre, hent⟩ :=
    exists_first_claim raw c ⟨(g, macs), hg, token, ht, hs⟩
  have hmem : entry ∈ raw := by rw [hraw]; simp
  have hname : entry.1 = g := by
    by_contra hne
    obtain ⟨t, ht1, hs1⟩ := hent
    exact hother entry hmem hne t ht1 hs1
  have hget := UpdateMappings_first ctx m pre post entry c hpre hent
  rw [← hraw, hname] at hget
  simp only [TryGetSecretNameForMACAddress, hm, hget]

/-- C7 at the mapping of `g1` to `aa:bb:cc:dd:ee:ff`: the upper-case,
hyphen-separated `AA-BB-CC-DD-EE-FF` resolves to `g1`. -/
theorem resolve_after_update_witness :
    (TryGetSecretNameForMACAddress ⟨id, "noauth".toList⟩
      (UpdateMappings ⟨id, "noauth".toList⟩ (NewMACAddressMapper ⟨fun _ => true⟩)
        [("g1".toList, "aa:bb:cc:dd:ee:ff".toList)]).1
      "AA-BB-CC-DD-EE-FF".toList "default".toList).1 = "g1".toList :=
  resolve_after_update ⟨id, "noauth".toList⟩ (NewMACAddressMapper ⟨fun _ => true⟩)
    [("g1".toList, "aa:bb:cc:dd:ee:ff".toList)] "g1".toList "aa:bb:cc:dd:ee:ff".toList
    "aa:bb:cc:dd:ee:ff".toList "aa:bb:cc:dd:ee:ff".toList (by simp) (by decide) rfl
    (by
      intro e he hne
      simp only [List.mem_singleton] at he
      subst he
      exact absurd rfl hne)
    "AA-BB-CC-DD-EE-FF".toList "default".toList rfl

/-- C8: when several entries list tokens with the canonical form `c`, the MAC
address resolves to the group of the first of them in the order the rebuild
visits the entries, whatever the later entries list and whatever the default:
the map holds that one group for `c`, a later claim does not overwrite it. -/
theorem first_claim_wins (ctx : Context) (m : MACAddressMapper)
    (pre post : List (GoString × GoString)) (entry : GoString × GoString) (c : GoString)
    (hpre : ∀ e ∈ pre, ∀ t ∈ Split e.2 ',', SanitizeMACAddress t ≠ .ok c)
    (hent : ∃ t ∈ Split entry.2 ',', SanitizeMACAddress t = .ok c)
    (mac d : GoString) (hm : SanitizeMACAddress mac = .ok c) :
    mapGet (UpdateMappings ctx m (pre ++ entry :: post)).1.credsMap c = some entry.1 ∧
    (TryGetSecretNameForMACAddress ctx (UpdateMappings ctx m (pre ++ entry :: post)).1
      mac d).1 = entry.1 := by
  have hget := UpdateMappings_first ctx m pre post entry c hpre hent
  refine ⟨hget, ?_⟩
  simp only [TryGetSecretNameForMACAddress, hm, hget]

/-- C8 at the mapping that lists `aa:bb:cc:dd:ee:ff` for `g1` and then for
`g2`: the address resolves to `g1`. -/
theorem first_claim_wins_witness :
    mapGet (UpdateMappings ⟨id, "noauth".toList⟩ (NewMACAddressMapper ⟨fun _ => true⟩)
      ([] ++ ("g1".toList, "aa:bb:cc:dd:ee:ff".toList) ::
        [("g2".toList, "aa:bb:cc:dd:ee:ff".toList)])).1.credsMap "aa:bb:cc:dd:ee:ff".toList
      = some "g1".toList ∧
    (TryGetSecretNameForMACAddress ⟨id, "noauth".toList⟩
      (UpdateMappings ⟨id, "noauth".toList⟩ (NewMACAddressMapper ⟨fun _ => true⟩)
        ([] ++ ("g1".toList, "aa:bb:cc:dd:ee:ff".toList) ::
          [("g2".toList, "aa:bb:cc:dd:ee:ff".toList)])).1
      "aa:bb:cc:dd:ee:ff".toList "default".toList).1 = "g1".toList :=
  first_claim_wins ⟨id, "noauth".toList⟩ (NewMACAddressMapper ⟨fun _ => true⟩) []
    [("g2".toList, "aa:bb:cc:dd:ee:ff".toList)] ("g1".toList, "aa:bb:cc:dd:ee:ff".toList)
    "aa:bb:cc:dd:ee:ff".toList (by simp)
    ⟨"aa:bb:cc:dd:ee:ff".toList, by decide, rfl⟩
    "aa:bb:cc:dd:ee:ff".toList "default".toList rfl

/-- C9: for every mapper state and every default, a MAC string that
`SanitizeMACAddress` rejects resolves to the reserved no-auth secret name. -/
theorem invalid_mac_resolves_to_no_auth (ctx : Context) (m : MACAddressMapper)
    (mac d : GoString) (e : AddrError) (h : SanitizeMACAddress mac = .error e) :
    (TryGetSecretNameForMACAddress ctx m mac d).1 = ctx.noAuthSecretName := by
  simp only [TryGetSecretNameForMACAddress, h]

/-- C9 at the input `not-a-mac`, with a map that holds a group and with the
default `default`. -/
theorem invalid_mac_resolves_to_no_auth_witness :
    (TryGetSecretNameForMACAddress ⟨id, "noauth".toList⟩
      { credsMap := [("aa:bb:cc:dd:ee:ff".toList, "g1".toList)], sdkService := ⟨fun _ => true⟩ }
      "not-a-mac".toList "default".toList).1 = "noauth".toList :=
  invalid_mac_resolves_to_no_auth ⟨id, "noauth".toList⟩
    { credsMap := [("aa:bb:cc:dd:ee:ff".toList, "g1".toList)], sdkService := ⟨fun _ => true⟩ }
    "not-a-mac".toList "default".toList
    { Err := "invalid MAC address".toList, Addr := "not-a-mac".toList } rfl

/-- C10: for every mapper state, every default `d` and every MAC string with
the canonical form `c`: when `c` is not a key of the map the call returns `d`,
and when the map holds the group `g` for `c` the call returns `g`. -/
theorem resolve_by_lookup (ctx : Context) (m : MACAddressMapper) (mac d c : GoString)
    (h : SanitizeMACAddress mac = .ok c) :
    (c ∉ m.credsMap.map Prod.fst →
      (TryGetSecretNameForMACAddress ctx m mac d).1 = d) ∧
    (∀ g, mapGet m.credsMap c = some g →
      (TryGetSecretNameForMACAddress ctx m mac d).1 = g) := by
  constructor
  · intro hk
    have hnone : mapGet m.credsMap c = none := by
      rw [mapGet, List.lookup_eq_none_iff]
      intro p hp
      simp only [bne_iff_ne, ne_eq]
      intro hc
      exact hk (List.mem_map.2 ⟨p, hp, hc.symm⟩)
    simp only [TryGetSecretNameForMACAddress, h, hnone]
  · intro g hg
    simp only [TryGetSecretNameForMACAddress, h, hg]

/-- C10 at `11:22:33:44:55:66` and a map without that key: the default is
returned. -/
theorem resolve_by_lookup_witness :
    (TryGetSecretNameForMACAddress ⟨id, "noauth".toList⟩
      { credsMap := [("aa:bb:cc:dd:ee:ff".toList, "g1".toList)], sdkService := ⟨fun _ => true⟩ }
      "11:22:33:44:55:66".toList "default".toList).1 = "default".toList :=
  (resolve_by_lookup ⟨id, "noauth".toList⟩
    { credsMap := [("aa:bb:cc:dd:ee:ff".toList, "g1".toList)], sdkService := ⟨fun _ => true⟩ }
    "11:22:33:44:55:66".toList "default".toList "11:22:33:44:55:66".toList rfl).1 (by decide)

/-! ## The key set after a rebuild -/

theorem mem_keys_iff_mapGet (m : List (GoString × GoString)) (c : GoString) :
    c ∈ m.map Prod.fst ↔ ∃ g, mapGet m c = some g := by
  induction m with
  | nil => simp [mapGet]
  | cons p m ih =>
    obtain ⟨k, v⟩ := p
    by_cases h : c = k
    · subst h
      simp [mapGet, List.lookup]
    · have hb : (c == k) = false := by simpa using h
      simp only [List.map_cons, List.mem_cons, h, false_or, mapGet, List.lookup, hb]
      exact ih

/-- C11: for every raw mapping, every previous mapper state and every
behaviour of the secret store, `UpdateMappings` returns, and a string is a key
of the resulting map exactly when it is the canonical form of some
comma-separated token, of some group of the raw mapping, that
`SanitizeMACAddress` accepts.  Rejected tokens add no key, a failing `GetSecret`
keeps no MAC address out, and the keys of the previous map play no part. -/
theorem update_key_set (ctx : Context) (m : MACAddressMapper)
    (raw : List (GoString × GoString)) (c : GoString) :
    c ∈ (UpdateMappings ctx m raw).1.credsMap.map Prod.fst ↔
      ∃ e ∈ raw, ∃ t ∈ Split e.2 ',', SanitizeMACAddress t = .ok c := by
  rw [mem_keys_iff_mapGet]
  constructor
  · rintro ⟨g, hg⟩
    by_contra hno
    have hnone := foldl_updateGroup_none ctx m.sdkService raw ([], []) c rfl
      (fun e he t ht hs => hno ⟨e, he, t, ht, hs⟩)
    simp only [UpdateMappings] at hg
    rw [hnone] at hg
    cases hg
  · intro hex
    obtain ⟨pre, entry, post, hraw, hpre, hent⟩ := exists_first_claim raw c hex
    exact ⟨entry.1, by rw [hraw]; exact UpdateMappings_first ctx m pre post entry c hpre hent⟩

/-- C11 at a previous map with the key `11:22:33:44:55:66`, a secret store
where `GetSecret` always fails and the raw mapping of `g1` to the tokens
`AA-BB-CC-DD-EE-FF` and `zz`: the one key afterwards is `aa:bb:cc:dd:ee:ff`. -/
theorem update_key_set_witness :
    (UpdateMappings ⟨id, "noauth".toList⟩
      { credsMap := [("11:22:33:44:55:66".toList, "g0".toList)], sdkService := ⟨fun _ => true⟩ }
      [("g1".toList, "AA-BB-CC-DD-EE-FF,zz".toList)]).1.credsMap.map Prod.fst
      = ["aa:bb:cc:dd:ee:ff".toList] ∧
    "aa:bb:cc:dd:ee:ff".toList ∈ (UpdateMappings ⟨id, "noauth".toList⟩
      { credsMap := [("11:22:33:44:55:66".toList, "g0".toList)], sdkService := ⟨fun _ => true⟩ }
      [("g1".toList, "AA-BB-CC-DD-EE-FF,zz".toList)]).1.credsMap.map Prod.fst :=
  ⟨rfl, (update_key_set ⟨id, "noauth".toList⟩
      { credsMap := [("11:22:33:44:55:66".toList, "g0".toList)], sdkService := ⟨fun _ => true⟩ }
      [("g1".toList, "AA-BB-CC-DD-EE-FF,zz".toList)] "aa:bb:cc:dd:ee:ff".toList).2
    ⟨("g1".toList, "AA-BB-CC-DD-EE-FF,zz".toList), by simp,
      "AA-BB-CC-DD-EE-FF".toList, by decide, rfl⟩⟩

/-! ## The entries after a rebuild -/

theorem mem_updateToken (secretName : GoString)
    (acc : List (GoString × GoString) × List LogEntry) (mac : GoString)
    (p : GoString × GoString) (hp : p ∈ (updateToken secretName acc mac).1) :
    p ∈ acc.1 ∨ (p.2 = secretName ∧ SanitizeMACAddress mac = .ok p.1) := by
  unfold updateToken at hp
  split at hp
  · exact Or.inl hp
  · rename_i sanitized hs
    split at hp
    · exact Or.inl hp
    · rename_i hnone
      simp only [mapSet, mapGet] at hnone hp
      rw [hnone] at hp
      simp only [List.mem_append, List.mem_singleton] at hp
      rcases hp with h | h
      · exact Or.inl h
      · subst h
        exact Or.inr ⟨rfl, hs⟩

theorem mem_foldl_updateToken (secretName : GoString) (toks : List GoString)
    (acc : List (GoString × GoString) × List LogEntry) (p : GoString × GoString)
    (hp : p ∈ (toks.foldl (updateToken secretName) acc).1) :
    p ∈ acc.1 ∨ (p.2 = secretName ∧ ∃ t ∈ toks, SanitizeMACAddress t = .ok p.1) := by
  induction toks generalizing acc with
  | nil => exact Or.inl hp
  | cons t toks ih =>
    rcases ih _ hp with h | ⟨h1, t1, ht1, hs1⟩
    · rcases mem_updateToken secretName acc t p h with h2 | ⟨h2, h3⟩
      · exact Or.inl h2
      · exact Or.inr ⟨h2, t, List.mem_cons_self _ _, h3⟩
    · exact Or.inr ⟨h1, t1, List.mem_cons_of_mem _ ht1, hs1⟩

theorem mem_foldl_updateGroup (ctx : Context) (sdk : DeviceServiceSDK)
    (raw : List (GoString × GoString)) (acc : List (GoString × GoString) × List LogEntry)
    (p : GoString × GoString) (hp : p ∈ (raw.foldl (updateGroup ctx sdk) acc).1) :
    p ∈ acc.1 ∨ ∃ e ∈ raw, e.1 = p.2 ∧ ∃ t ∈ Split e.2 ',', SanitizeMACAddress t = .ok p.1 := by
  induction raw generalizing acc with
  | nil => exact Or.inl hp
  | cons e raw ih =>
    rcases ih _ hp with h | ⟨e1, he1, hn, ht⟩
    · rcases mem_foldl_updateToken e.1 (Split e.2 ',') _ p h with h2 | ⟨h2, h3⟩
      · exact Or.inl h2
      · exact Or.inr ⟨e, List.mem_cons_self _ _, h2.symm, h3⟩
    · exact Or.inr ⟨e1, List.mem_cons_of_mem _ he1, hn, ht⟩

/-- Every entry of the map built by `UpdateMappings` comes from a token of the
raw mapping: its key is the canonical form of the token, its value the group
that lists the token. -/
theorem mem_UpdateMappings (ctx : Context) (m : MACAddressMapper)
    (raw : List (GoString × GoString)) (p : GoString × GoString)
    (hp : p ∈ (UpdateMappings ctx m raw).1.credsMap) :
    ∃ e ∈ raw, e.1 = p.2 ∧ ∃ t ∈ Split e.2 ',', SanitizeMACAddress t = .ok p.1 := by
  rcases mem_foldl_updateGroup ctx m.sdkService raw ([], []) p hp with h | h
  · simp at h
  · exact h

/-- A result of `SanitizeMACAddress` is a fixed point of it. -/
theorem Sanitize_idem (mac c : GoString) (h : SanitizeMACAddress mac = .ok c) :
    SanitizeMACAddress c = .ok c := by
  obtain ⟨hw, hl, hbd, _, hc⟩ := Sanitize_ok mac c h
  subst hc
  exact Sanitize_canonicalMAC hw hl hbd

/-- The byte-wise reverse of a fixed point of `SanitizeMACAddress` returns a
result. -/
theorem reverse_of_fixed_point (k : GoString) (h : SanitizeMACAddress k = .ok k) :
    ∃ r, macAddressBytewiseReverse k = some (.ok r) := by
  obtain ⟨hw, _, hbd, _, hc⟩ := Sanitize_ok k k h
  rw [hc] at h
  exact ⟨canonicalMAC hw.reverse, by rw [hc]; exact reverse_of_sanitize _ hw hbd h⟩

theorem applyUpdates_nil (ctx : Context) (sdk : DeviceServiceSDK) :
    (applyUpdates ctx sdk []).credsMap = [] := rfl

theorem applyUpdates_concat (ctx : Context) (sdk : DeviceServiceSDK)
    (raws : List (List (GoString × GoString))) (raw : List (GoString × GoString)) :
    applyUpdates ctx sdk (raws ++ [raw]) =
      (UpdateMappings ctx (applyUpdates ctx sdk raws) raw).1 := by
  simp [applyUpdates, List.foldl_append]

/-- The invariant of the mapper: after any sequence of updates every key is a
fixed point of `SanitizeMACAddress` and every value is a group of the raw
mapping of the last update. -/
theorem applyUpdates_entries (ctx : Context) (sdk : DeviceServiceSDK)
    (raws : List (List (GoString × GoString))) (p : GoString × GoString)
    (hp : p ∈ (applyUpdates ctx sdk raws).credsMap) :
    SanitizeMACAddress p.1 = .ok p.1 ∧
      ∃ raw, raws.getLast? = some raw ∧ p.2 ∈ raw.map Prod.fst := by
  induction raws using List.reverseRecOn with
  | nil => simp [applyUpdates_nil] at hp
  | append_singleton raws raw _ =>
    rw [applyUpdates_concat] at hp
    obtain ⟨e, he, hn, t, _, hs⟩ := mem_UpdateMappings ctx _ raw p hp
    refine ⟨Sanitize_idem t p.1 hs, raw, by simp, ?_⟩
    rw [← hn]
    exact List.mem_map.2 ⟨e, he, rfl⟩

/-! ## The search of an endpoint reference -/

/-- The loop of `MatchEndpointRefAddressToMAC` over entries whose keys have a
byte-wise reverse: it returns, writes no log entry, and answers with the key of
the first entry that matches in one of the two ways, or with the empty string
when no entry does. -/
theorem matchLoop_spec (endpointRef : GoString) (rest : List (GoString × GoString))
    (hrev : ∀ p ∈ rest, ∃ r, macAddressBytewiseReverse p.1 = some (.ok r))
    (logs : List LogEntry) :
    ∃ k, matchLoop endpointRef rest logs = some (k, logs) ∧
      ((k = [] ∧ ∀ p ∈ rest, Contains endpointRef (ReplaceAll p.1 ':' []) = false ∧
          ∀ r, macAddressBytewiseReverse p.1 = some (.ok r) → Contains endpointRef r = false) ∨
       (k ∈ rest.map Prod.fst ∧ (Contains endpointRef (ReplaceAll k ':' []) = true ∨
          ∃ r, macAddressBytewiseReverse k = some (.ok r) ∧ Contains endpointRef r = true))) := by
  induction rest with
  | nil => exact ⟨[], rfl, Or.inl ⟨rfl, by simp⟩⟩
  | cons p rest ih =>
    obtain ⟨mac, g⟩ := p
    obtain ⟨r, hr⟩ := hrev (mac, g) (List.mem_cons_self _ _)
    simp only at hr
    rw [matchLoop]
    by_cases hf : Contains endpointRef (ReplaceAll mac ':' []) = true
    · rw [if_pos hf]
      exact ⟨mac, rfl, Or.inr ⟨by simp, Or.inl hf⟩⟩
    · rw [if_neg hf, hr]
      simp only
      by_cases hb : Contains endpointRef r = true
      · rw [if_pos hb]
        exact ⟨mac, rfl, Or.inr ⟨by simp, Or.inr ⟨r, hr, hb⟩⟩⟩
      · rw [if_neg hb]
        obtain ⟨k, hk, hcase⟩ := ih (fun q hq => hrev q (List.mem_cons_of_mem _ hq))
        refine ⟨k, hk, ?_⟩
        rcases hcase with ⟨hk0, hall⟩ | ⟨hmem, hmatch⟩
        · refine Or.inl ⟨hk0, ?_⟩
          intro q hq
          rcases List.mem_cons.1 hq with h | h
          · subst h
            refine ⟨by simpa using hf, ?_⟩
            intro r1 hr1
            rw [hr] at hr1
            simp only [Option.some.injEq, Except.ok.injEq] at hr1
            subst hr1
            simpa using hb
          · exact hall q h
        · exact Or.inr ⟨by simp only [List.map_cons, List.mem_cons]; exact Or.inr hmem, hmatch⟩

/-- C20: for a mapper made by `NewMACAddressMapper` and after any sequence of
`UpdateMappings` calls, every key of the map is a fixed point of
`SanitizeMACAddress`, every value is a group name that is a key of the raw
mapping of the last call, `macAddressBytewiseReverse` returns a result on every
key, and `MatchEndpointRefAddressToMAC` returns without writing a log entry on
every text: its error branch, the only place where it logs, is never taken. -/
theorem keys_canonical_after_updates (ctx : Context) (sdk : DeviceServiceSDK)
    (raws : List (List (GoString × GoString))) :
    (∀ p ∈ (applyUpdates ctx sdk raws).credsMap,
      SanitizeMACAddress p.1 = .ok p.1 ∧
      (∃ raw, raws.getLast? = some raw ∧ p.2 ∈ raw.map Prod.fst) ∧
      ∃ r, macAddressBytewiseReverse p.1 = some (.ok r)) ∧
    ∀ text, ∃ k,
      MatchEndpointRefAddressToMAC ctx (applyUpdates ctx sdk raws) text = some (k, []) := by
  constructor
  · intro p hp
    obtain ⟨h1, h2⟩ := applyUpdates_entries ctx sdk raws p hp
    exact ⟨h1, h2, reverse_of_fixed_point p.1 h1⟩
  · intro text
    obtain ⟨k, hk, _⟩ := matchLoop_spec (ToLower ctx.caseTable (ReplaceAll text '-' []))
      (applyUpdates ctx sdk raws).credsMap
      (fun p hp => reverse_of_fixed_point p.1 (applyUpdates_entries ctx sdk raws p hp).1) []
    exact ⟨k, hk⟩

/-- C20 after two updates, the second with an upper-case token and a malformed
one: the map holds the one key `aa:bb:cc:dd:ee:ff`, for the group `g2`. -/
theorem keys_canonical_after_updates_witness :
    (applyUpdates ⟨id, "noauth".toList⟩ ⟨fun _ => true⟩
      [[("g1".toList, "11:22:33:44:55:66".toList)],
       [("g2".toList, "AA-BB-CC-DD-EE-FF,zz".toList)]]).credsMap
      = [("aa:bb:cc:dd:ee:ff".toList, "g2".toList)] ∧
    SanitizeMACAddress "aa:bb:cc:dd:ee:ff".toList = .ok "aa:bb:cc:dd:ee:ff".toList ∧
    ∃ r, macAddressBytewiseReverse "aa:bb:cc:dd:ee:ff".toList = some (.ok r) :=
  ⟨rfl,
    ((keys_canonical_after_updates ⟨id, "noauth".toList⟩ ⟨fun _ => true⟩
      [[("g1".toList, "11:22:33:44:55:66".toList)],
       [("g2".toList, "AA-BB-CC-DD-EE-FF,zz".toList)]]).1
      ("aa:bb:cc:dd:ee:ff".toList, "g2".toList) (List.mem_singleton.2 rfl)).1,
    ((keys_canonical_after_updates ⟨id, "noauth".toList⟩ ⟨fun _ => true⟩
      [[("g1".toList, "11:22:33:44:55:66".toList)],
       [("g2".toList, "AA-BB-CC-DD-EE-FF,zz".toList)]]).1
      ("aa:bb:cc:dd:ee:ff".toList, "g2".toList) (List.mem_singleton.2 rfl)).2.2⟩

/-- The function `Contains` holds exactly when the text is some `pre`, then
`substr`, then some `post`. -/
theorem Contains_iff (s substr : GoString) :
    Contains s substr = true ↔ ∃ pre post, s = pre ++ substr ++ post := by
  induction s with
  | nil =>
    simp only [Contains, List.isEmpty_iff]
    constructor
    · intro h; subst h; exact ⟨[], [], rfl⟩
    · rintro ⟨pre, post, h⟩
      have := congrArg List.length h
      simp only [List.length_nil, List.length_append] at this
      exact List.length_eq_zero.1 (by omega)
  | cons c s ih =>
    simp only [Contains, Bool.or_eq_true, List.isPrefixOf_iff_prefix, ih]
    constructor
    · rintro (⟨post, h⟩ | ⟨pre, post, h⟩)
      · exact ⟨[], post, by simpa using h.symm⟩
      · exact ⟨c :: pre, post, by simp [h]⟩
    · rintro ⟨pre, post, h⟩
      cases pre with
      | nil => exact Or.inl ⟨post, by simpa using h.symm⟩
      | cons d pre =>
        simp only [List.cons_append, List.cons.injEq] at h
        exact Or.inr ⟨pre, post, h.2⟩

theorem fixed_point_ne_nil (k : GoString) (h : SanitizeMACAddress k = .ok k) : k ≠ [] := by
  intro hk
  subst hk
  have h0 : SanitizeMACAddress [] =
      .error { Err := "invalid MAC address".toList, Addr := [] } := rfl
  rw [h0] at h
  cases h

/-- The loop of `MatchEndpointRefAddressToMAC`, when some entry matches in one
of the two ways: the key returned is the key of the first entry, in visiting
order, that matches. -/
theorem matchLoop_first (endpointRef : GoString) (rest : List (GoString × GoString))
    (hrev : ∀ p ∈ rest, ∃ r, macAddressBytewiseReverse p.1 = some (.ok r))
    (logs : List LogEntry)
    (hex : ∃ p ∈ rest, Contains endpointRef (ReplaceAll p.1 ':' []) = true ∨
      ∃ r, macAddressBytewiseReverse p.1 = some (.ok r) ∧ Contains endpointRef r = true) :
    ∃ front k g back, rest = front ++ (k, g) :: back ∧
      matchLoop endpointRef rest logs = some (k, logs) ∧
      (Contains endpointRef (ReplaceAll k ':' []) = true ∨
        ∃ r, macAddressBytewiseReverse k = some (.ok r) ∧ Contains endpointRef r = true) ∧
      ∀ q ∈ front, Contains endpointRef (ReplaceAll q.1 ':' []) = false ∧
        ∀ r, macAddressBytewiseReverse q.1 = some (.ok r) → Contains endpointRef r = false := by
  induction rest with
  | nil => obtain ⟨p, hp, _⟩ := hex; simp at hp
  | cons p rest ih =>
    obtain ⟨mac, g⟩ := p
    obtain ⟨r, hr⟩ := hrev (mac, g) (List.mem_cons_self _ _)
    simp only at hr
    by_cases hf : Contains endpointRef (ReplaceAll mac ':' []) = true
    · refine ⟨[], mac, g, rest, rfl, ?_, Or.inl hf, by simp⟩
      rw [matchLoop, if_pos hf]
    · by_cases hb : Contains endpointRef r = true
      · refine ⟨[], mac, g, rest, rfl, ?_, Or.inr ⟨r, hr, hb⟩, by simp⟩
        rw [matchLoop, if_neg hf, hr]
        simp only
        rw [if_pos hb]
      · have hex1 : ∃ p ∈ rest, Contains endpointRef (ReplaceAll p.1 ':' []) = true ∨
            ∃ r, macAddressBytewiseReverse p.1 = some (.ok r) ∧
              Contains endpointRef r = true := by
          obtain ⟨p, hp, hm⟩ := hex
          rcases List.mem_cons.1 hp with h | h
          · subst h
            rcases hm with h1 | ⟨r1, hr1, hc1⟩
            · exact absurd h1 hf
            · rw [hr] at hr1
              simp only [Option.some.injEq, Except.ok.injEq] at hr1
              subst hr1
              exact absurd hc1 hb
          · exact ⟨p, h, hm⟩
        obtain ⟨front, k, g1, back, hsplit, hk, hmatch, hfront⟩ :=
          ih (fun q hq => hrev q (List.mem_cons_of_mem _ hq)) hex1
        refine ⟨(mac, g) :: front, k, g1, back, by simp [hsplit], ?_, hmatch, ?_⟩
        · rw [matchLoop, if_neg hf, hr]
          simp only
          rw [if_neg hb]
          exact hk
        · intro q hq
          rcases List.mem_cons.1 hq with h | h
          · subst h
            refine ⟨by simpa using hf, ?_⟩
            intro r1 hr1
            rw [hr] at hr1
            simp only [Option.some.injEq, Except.ok.injEq] at hr1
            subst hr1
            simpa using hb
          · exact hfront q h

/-- C12: for a mapper after any sequence of updates, a key `mac` of the map and
a text that, with its hyphens removed and in lower case, holds the
colon-stripped hex digits of `mac` in forward order, the method
`MatchEndpointRefAddressToMAC` returns a key of the map, which is not the
empty string, and writes no log entry; when `mac` is the only key it returns
`mac`.  The key returned is one that the normalized text matches (it holds the
colon-stripped digits of the key, or the byte-wise reverse of the key as the
code compares it), and it is the key of the first entry, in visiting order,
that matches: no entry visited before it does.  The hypothesis is on the
normalized text, so upper-case digits and hyphens between the digits of the text
itself do not matter. -/
theorem match_forward_digits (ctx : Context) (sdk : DeviceServiceSDK)
    (raws : List (List (GoString × GoString))) (mac text pre post : GoString)
    (hkey : mac ∈ (applyUpdates ctx sdk raws).credsMap.map Prod.fst)
    (htext : ToLower ctx.caseTable (ReplaceAll text '-' []) =
      pre ++ ReplaceAll mac ':' [] ++ post) :
    ∃ k, MatchEndpointRefAddressToMAC ctx (applyUpdates ctx sdk raws) text = some (k, []) ∧
      k ≠ [] ∧ k ∈ (applyUpdates ctx sdk raws).credsMap.map Prod.fst ∧
      ((applyUpdates ctx sdk raws).credsMap.map Prod.fst = [mac] → k = mac) ∧
      (Contains (ToLower ctx.caseTable (ReplaceAll text '-' [])) (ReplaceAll k ':' []) = true ∨
        ∃ r, macAddressBytewiseReverse k = some (.ok r) ∧
          Contains (ToLower ctx.caseTable (ReplaceAll text '-' [])) r = true) ∧
      ∃ front g back, (applyUpdates ctx sdk raws).credsMap = front ++ (k, g) :: back ∧
        ∀ q ∈ front,
          Contains (ToLower ctx.caseTable (ReplaceAll text '-' [])) (ReplaceAll q.1 ':' [])
            = false ∧
          ∀ r, macAddressBytewiseReverse q.1 = some (.ok r) →
            Contains (ToLower ctx.caseTable (ReplaceAll text '-' [])) r = false := by
  have hinv := fun p hp => (applyUpdates_entries ctx sdk raws p hp).1
  have hcont : Contains (ToLower ctx.caseTable (ReplaceAll text '-' []))
      (ReplaceAll mac ':' []) = true := (Contains_iff _ _).2 ⟨pre, post, htext⟩
  obtain ⟨p0, hp0, hp01⟩ := List.mem_map.1 hkey
  obtain ⟨front, k, g, back, hsplit, hk, hmatch, hfront⟩ :=
    matchLoop_first (ToLower ctx.caseTable (ReplaceAll text '-' []))
      (applyUpdates ctx sdk raws).credsMap
      (fun p hp => reverse_of_fixed_point p.1 (hinv p hp)) []
      ⟨p0, hp0, Or.inl (by rw [hp01]; exact hcont)⟩
  have hmemp : (k, g) ∈ (applyUpdates ctx sdk raws).credsMap := by rw [hsplit]; simp
  have hmem : k ∈ (applyUpdates ctx sdk raws).credsMap.map Prod.fst :=
    List.mem_map.2 ⟨(k, g), hmemp, rfl⟩
  refine ⟨k, hk, fixed_point_ne_nil k (hinv (k, g) hmemp), hmem, ?_, hmatch,
    front, g, back, hsplit, hfront⟩
  intro honly
  rw [honly] at hmem
  exact List.mem_singleton.1 hmem

/-- C12 at the map with the keys `11:22:33:44:55:66` and `aa:bb:cc:dd:ee:ff`,
visited in this order, and the text `urn:uuid:1234-AABB-CCDD-EEFF`, with
upper-case digits and hyphens between them: the call returns
`aa:bb:cc:dd:ee:ff`, the one key that the text matches, not the key visited
first. -/
theorem match_forward_digits_witness :
    (MatchEndpointRefAddressToMAC ⟨id, "noauth".toList⟩
        (applyUpdates ⟨id, "noauth".toList⟩ ⟨fun _ => true⟩
          [[("g0".toList, "11:22:33:44:55:66".toList),
            ("g1".toList, "aa:bb:cc:dd:ee:ff".toList)]])
        "urn:uuid:1234-AABB-CCDD-EEFF".toList = some ("aa:bb:cc:dd:ee:ff".toList, [])) ∧
    ∃ k, MatchEndpointRefAddressToMAC ⟨id, "noauth".toList⟩
        (applyUpdates ⟨id, "noauth".toList⟩ ⟨fun _ => true⟩
          [[("g0".toList, "11:22:33:44:55:66".toList),
            ("g1".toList, "aa:bb:cc:dd:ee:ff".toList)]])
        "urn:uuid:1234-AABB-CCDD-EEFF".toList = some (k, []) ∧
      k ≠ [] ∧
      k ∈ (applyUpdates ⟨id, "noauth".toList⟩ ⟨fun _ => true⟩
          [[("g0".toList, "11:22:33:44:55:66".toList),
            ("g1".toList, "aa:bb:cc:dd:ee:ff".toList)]]).credsMap.map Prod.fst ∧
      ((applyUpdates ⟨id, "noauth".toList⟩ ⟨fun _ => true⟩
          [[("g0".toList, "11:22:33:44:55:66".toList),
            ("g1".toList, "aa:bb:cc:dd:ee:ff".toList)]]).credsMap.map Prod.fst
          = ["aa:bb:cc:dd:ee:ff".toList] → k = "aa:bb:cc:dd:ee:ff".toList) ∧
      (Contains (ToLower id (ReplaceAll "urn:uuid:1234-AABB-CCDD-EEFF".toList '-' []))
          (ReplaceAll k ':' []) = true ∨
        ∃ r, macAddressBytewiseReverse k = some (.ok r) ∧
          Contains (ToLower id (ReplaceAll "urn:uuid:1234-AABB-CCDD-EEFF".toList '-' [])) r
            = true) ∧
      ∃ front g back, (applyUpdates ⟨id, "noauth".toList⟩ ⟨fun _ => true⟩
          [[("g0".toList, "11:22:33:44:55:66".toList),
            ("g1".toList, "aa:bb:cc:dd:ee:ff".toList)]]).credsMap = front ++ (k, g) :: back ∧
        ∀ q ∈ front,
          Contains (ToLower id (ReplaceAll "urn:uuid:1234-AABB-CCDD-EEFF".toList '-' []))
            (ReplaceAll q.1 ':' []) = false ∧
          ∀ r, macAddressBytewiseReverse q.1 = some (.ok r) →
            Contains (ToLower id (ReplaceAll "urn:uuid:1234-AABB-CCDD-EEFF".toList '-' [])) r
              = false :=
  ⟨rfl, match_forward_digits ⟨id, "noauth".toList⟩ ⟨fun _ => true⟩
    [[("g0".toList, "11:22:33:44:55:66".toList), ("g1".toList, "aa:bb:cc:dd:ee:ff".toList)]]
    "aa:bb:cc:dd:ee:ff".toList "urn:uuid:1234-AABB-CCDD-EEFF".toList "urn:uuid:1234".toList []
    (by decide) rfl⟩

/-- C13: a text in which neither the colon-stripped digits of a known MAC
address nor those of its byte-reversed form occur is expected to give the empty
string.  On the code it does not always: with `aa:bb:cc:dd:ee:ff` as the only
key, the text `ff:ee:dd:cc:bb:aa` holds neither `aabbccddeeff` nor
`ffeeddccbbaa`, yet the key is returned, because the reversed address is
compared with its colons.  With an empty map every text gives the empty
string. -/
theorem match_reversed_with_colons_found (ctx : Context) (sdk : DeviceServiceSDK) :
    (MatchEndpointRefAddressToMAC ctx
        (applyUpdates ctx sdk [[("g1".toList, "aa:bb:cc:dd:ee:ff".toList)]])
        "ff:ee:dd:cc:bb:aa".toList = some ("aa:bb:cc:dd:ee:ff".toList, [])) ∧
    ToLower ctx.caseTable (ReplaceAll "ff:ee:dd:cc:bb:aa".toList '-' [])
      = "ff:ee:dd:cc:bb:aa".toList ∧
    Contains "ff:ee:dd:cc:bb:aa".toList "aabbccddeeff".toList = false ∧
    Contains "ff:ee:dd:cc:bb:aa".toList "ffeeddccbbaa".toList = false ∧
    ∀ text, MatchEndpointRefAddressToMAC ctx (NewMACAddressMapper sdk) text = some ([], []) :=
  ⟨rfl, rfl, rfl, rfl, fun _ => rfl⟩

/-! ## Safety of the byte-wise reverse -/

/-- The loop of `macAddressBytewiseReverse` returns only when its index counts
down to `0`: from an odd index it ends in the panic of `mac[-1:1]`. -/
theorem reverseLoop_some_even (mac : GoString) :
    ∀ (n i : Nat), i ≤ n → ∀ (buf out : GoString),
      reverseLoop mac i buf = some out → i % 2 = 0 := by
  intro n
  induction n with
  | zero =>
    intro i hi buf out _
    have : i = 0 := by omega
    subst this; rfl
  | succ n ih =>
    intro i hi buf out h
    match i, hi, h with
    | 0, _, _ => rfl
    | 1, _, h =>
      have hs : slice mac ((1 : Int) - 2) 1 = none := by
        rw [slice, if_neg]; omega
      rw [reverseLoop, hs] at h
      cases h
    | j + 2, hi, h =>
      rw [reverseLoop] at h
      split at h
      · cases h
      · have := ih j (by omega) _ out h
        omega

/-- C19: the function `macAddressBytewiseReverse` panics on no input.  When
`SanitizeMACAddress` accepts the input, the canonical form without its colons
has a positive, even number of characters, every slice `mac[i-2:i]` at an even
`i` from `len(mac)` down to `2` is within bounds and two characters long, and
the loop returns; a loop that returns has counted `i` down to `0`. -/
theorem reverse_never_panics (mac : GoString) :
    (∃ res, macAddressBytewiseReverse mac = some res) ∧
    (∀ r, SanitizeMACAddress mac = .ok r →
      0 < (ReplaceAll r ':' []).length ∧ (ReplaceAll r ':' []).length % 2 = 0 ∧
      (∀ i : Nat, 0 < i → i ≤ (ReplaceAll r ':' []).length → i % 2 = 0 →
        ∃ octet, slice (ReplaceAll r ':' []) ((i : Int) - 2) (i : Int) = some octet ∧
          octet.length = 2) ∧
      ∃ out, reverseLoop (ReplaceAll r ':' []) (ReplaceAll r ':' []).length [] = some out) ∧
    (∀ (s : GoString) (i : Nat) (buf out : GoString),
      reverseLoop s i buf = some out → i % 2 = 0) := by
  refine ⟨?_, ?_, fun s i buf out h => reverseLoop_some_even s i i (Nat.le_refl i) buf out h⟩
  · cases hs : SanitizeMACAddress mac with
    | error e => exact ⟨.error e, by rw [macAddressBytewiseReverse, hs]⟩
    | ok r =>
      obtain ⟨hw, _, hbd, _, hr⟩ := Sanitize_ok mac r hs
      subst hr
      exact ⟨_, reverse_of_sanitize mac hw hbd hs⟩
  · intro r hs
    obtain ⟨hw, hl, hbd, _, hr⟩ := Sanitize_ok mac r hs
    subst hr
    rw [ReplaceAll_canonicalMAC hw hbd, length_digits]
    refine ⟨by omega, by omega, ?_, ?_⟩
    · intro i hi0 hile hieven
      have hc : 0 ≤ (i : Int) - 2 ∧ (i : Int) - 2 ≤ (i : Int) ∧
          (i : Int) ≤ (((hw.map (octetText (false, false))).flatten).length : Int) := by
        rw [length_digits]; omega
      refine ⟨_, by rw [slice, if_pos hc], ?_⟩
      have h1 : ((i : Int) - 2).toNat = i - 2 := by omega
      have h2 : ((i : Int) - ((i : Int) - 2)).toNat = 2 := by omega
      rw [h1, h2, List.length_take, List.length_drop, length_digits]
      omega
    · have := reverseLoop_digits hw [] []
      rw [List.append_nil] at this
      exact ⟨_, this⟩

/-- C19 at the input `AABB.CCDD.EEFF`: the digits `aabbccddeeff` are twelve, and
the first slice the loop takes, `mac[10:12]`, is `ff`. -/
theorem reverse_never_panics_witness :
    0 < (ReplaceAll "aa:bb:cc:dd:ee:ff".toList ':' []).length ∧
    (ReplaceAll "aa:bb:cc:dd:ee:ff".toList ':' []).length % 2 = 0 ∧
    (∀ i : Nat, 0 < i → i ≤ (ReplaceAll "aa:bb:cc:dd:ee:ff".toList ':' []).length →
      i % 2 = 0 →
      ∃ octet, slice (ReplaceAll "aa:bb:cc:dd:ee:ff".toList ':' []) ((i : Int) - 2) (i : Int)
        = some octet ∧ octet.length = 2) ∧
    ∃ out, reverseLoop (ReplaceAll "aa:bb:cc:dd:ee:ff".toList ':' [])
      (ReplaceAll "aa:bb:cc:dd:ee:ff".toList ':' []).length [] = some out :=
  (reverse_never_panics "AABB.CCDD.EEFF".toList).2.1 "aa:bb:cc:dd:ee:ff".toList rfl

/-! ## The credential resolver -/

/-- C14: for every secret name that equals the reserved no-auth name up to
letter case, `tryGetCredentials` returns, without error, credentials with the
auth mode `AuthModeNone` and an empty user name and password, whatever the
secret store holds, and asks nothing of the secret store. -/
theorem no_auth_credentials (ctx : Context) (tok : OnvifTokens) (store : SecretProvider)
    (secretName : GoString)
    (h : ToLower ctx.caseTable secretName = ToLower ctx.caseTable ctx.noAuthSecretName) :
    tryGetCredentials ctx tok store secretName =
      (.ok { AuthMode := .AuthModeNone, Username := [], Password := [] }, []) := by
  simp only [tryGetCredentials, h, if_true]

/-- C14 at the secret name `NoAuth`, with the reserved name `noauth` and a
secret store that holds a user name, a password and the digest mode for every
name. -/
theorem no_auth_credentials_witness :
    tryGetCredentials ⟨id, "noauth".toList⟩
      ⟨"digest".toList, "usernametoken".toList, "both".toList, "none".toList⟩
      (fun _ => .ok ⟨"username".toList, "password".toList, "digest".toList⟩) "NoAuth".toList =
      (.ok { AuthMode := .AuthModeNone, Username := [], Password := [] }, []) :=
  no_auth_credentials ⟨id, "noauth".toList⟩
    ⟨"digest".toList, "usernametoken".toList, "both".toList, "none".toList⟩
    (fun _ => .ok ⟨"username".toList, "password".toList, "digest".toList⟩) "NoAuth".toList rfl

/-- C15: for every secret name other than the no-auth name for which the
secret store returns the user name `u`, the password `p` and a mode that is
none of the four auth-mode tokens, `tryGetCredentials` succeeds with the auth
mode `AuthModeUsernameToken`, the user name `u` and the password `p`, after one
call of the secret store. -/
theorem unknown_mode_is_username_token (ctx : Context) (tok : OnvifTokens)
    (store : SecretProvider) (secretName u p mode : GoString)
    (hname : ToLower ctx.caseTable secretName ≠ ToLower ctx.caseTable ctx.noAuthSecretName)
    (hstore : store secretName = .ok { username := u, password := p, mode := mode })
    (hmode : IsAuthModeValid tok mode = false) :
    tryGetCredentials ctx tok store secretName =
      (.ok { AuthMode := .AuthModeUsernameToken, Username := u, Password := p },
        [secretName]) := by
  simp only [IsAuthModeValid, Bool.or_eq_false_iff, beq_eq_false_iff_ne, ne_eq] at hmode
  obtain ⟨⟨⟨h1, h2⟩, h3⟩, h4⟩ := hmode
  simp only [tryGetCredentials, hname, if_false, hstore, ResolveAuthMode, h1, h2, h3, h4]

/-- C15 at the secret name `validSecretNameInvalidAuthMode` with the mode
`invalidAuthMode`, as in the test of the package. -/
theorem unknown_mode_is_username_token_witness :
    tryGetCredentials ⟨id, "noauth".toList⟩
      ⟨"digest".toList, "usernametoken".toList, "both".toList, "none".toList⟩
      (fun _ => .ok ⟨"username".toList, "password".toList, "invalidAuthMode".toList⟩)
      "validSecretNameInvalidAuthMode".toList =
      (.ok { AuthMode := .AuthModeUsernameToken, Username := "username".toList,
             Password := "password".toList }, ["validSecretNameInvalidAuthMode".toList]) :=
  unknown_mode_is_username_token ⟨id, "noauth".toList⟩
    ⟨"digest".toList, "usernametoken".toList, "both".toList, "none".toList⟩
    (fun _ => .ok ⟨"username".toList, "password".toList, "invalidAuthMode".toList⟩)
    "validSecretNameInvalidAuthMode".toList "username".toList "password".toList
    "invalidAuthMode".toList (by decide) rfl (by decide)

/-- C16: for every device whose ONVIF protocol properties are absent, hold no
MAC address or hold an empty one, `tryGetCredentialsForDevice` fails with
`MissingMACAddress`, returns no credentials and asks nothing of the secret
store, whatever the mapper state and the configured default secret name. -/
theorem missing_mac_address_fails (ctx : Context) (tok : OnvifTokens) (store : SecretProvider)
    (cfg : DriverConfig) (mapper : MACAddressMapper) (device : Device)
    (h : deviceMACAddress cfg device = none ∨ deviceMACAddress cfg device = some []) :
    tryGetCredentialsForDevice ctx tok store cfg mapper device =
      (.error .MissingMACAddress, []) := by
  rcases h with h | h <;> simp [tryGetCredentialsForDevice, h]

/-- C16 at a device whose ONVIF properties hold the empty MAC address, with a
map that knows a MAC address and the default `default_secret_name`, as in the
test of the package. -/
theorem missing_mac_address_fails_witness :
    tryGetCredentialsForDevice ⟨id, "noauth".toList⟩
      ⟨"digest".toList, "usernametoken".toList, "both".toList, "none".toList⟩
      (fun _ => .ok ⟨"username".toList, "password".toList, "digest".toList⟩)
      ⟨"Onvif".toList, "MACAddress".toList, "default_secret_name".toList⟩
      { credsMap := [("aa:bb:cc:dd:ee:ff".toList, "secret_name".toList)],
        sdkService := ⟨fun _ => false⟩ }
      ⟨[("Onvif".toList, [("MACAddress".toList, [])])]⟩ =
      (.error .MissingMACAddress, []) :=
  missing_mac_address_fails ⟨id, "noauth".toList⟩
    ⟨"digest".toList, "usernametoken".toList, "both".toList, "none".toList⟩
    (fun _ => .ok ⟨"username".toList, "password".toList, "digest".toList⟩)
    ⟨"Onvif".toList, "MACAddress".toList, "default_secret_name".toList⟩
    { credsMap := [("aa:bb:cc:dd:ee:ff".toList, "secret_name".toList)],
      sdkService := ⟨fun _ => false⟩ }
    ⟨[("Onvif".toList, [("MACAddress".toList, [])])]⟩ (Or.inr rfl)

/-- C17: for every string, `IsAuthModeValid` holds exactly when the string is
one of the four ONVIF auth-mode tokens (digest, username token, both, no
auth), and is false for every other string. -/
theorem auth_mode_valid_iff (tok : OnvifTokens) (s : GoString) :
    (IsAuthModeValid tok s = true ↔
      s = tok.DigestAuth ∨ s = tok.UsernameTokenAuth ∨ s = tok.Both ∨ s = tok.NoAuth) ∧
    (s ≠ tok.DigestAuth → s ≠ tok.UsernameTokenAuth → s ≠ tok.Both → s ≠ tok.NoAuth →
      IsAuthModeValid tok s = false) := by
  constructor
  · simp only [IsAuthModeValid, Bool.or_eq_true, beq_iff_eq]
    tauto
  · intro h1 h2 h3 h4
    simp [IsAuthModeValid, h1, h2, h3, h4]

/-- C17 at the string `invalidValue` of the test of the package. -/
theorem auth_mode_valid_iff_witness :
    IsAuthModeValid ⟨"digest".toList, "usernametoken".toList, "both".toList, "none".toList⟩
      "invalidValue".toList = false :=
  (auth_mode_valid_iff ⟨"digest".toList, "usernametoken".toList, "both".toList, "none".toList⟩
    "invalidValue".toList).2 (by decide) (by decide) (by decide) (by decide)

end Driver
